import Mathlib

set_option maxHeartbeats 1000000

/-!
Verification of the flat-list-to-tree transformation in `src/buildTree.mjs`.

The JavaScript program reads a flat array of node records, each carrying a
`nodeId`, a `parentId` and a `previousSiblingId`, and rebuilds the nested
tree in three phases:

* phase 1 builds two keyed stores `references` (the node records, each with
  an empty `children` array) and `metaData`
  (`{isLastNode: true, childrenAreSorted: false}` per node);
* phase 2 clears `isLastNode` on every node that some node names as its
  `previousSiblingId`;
* phase 3 iterates over the keys of `references`; at every node still marked
  `isLastNode` it walks the `previousSiblingId` links backwards, prepending
  each visited node, and installs the accumulated run either as the parent's
  `children` or as the root `tree`.

The embedding below mirrors the source exactly.  JavaScript objects are
modelled as association lists keyed by strings (`Store`), assignment to an
existing key replaces the value in place, and a fresh key is appended.
Property reads on `undefined` (a JavaScript `TypeError`) are modelled by the
`Outcome.crash` result, and the unbounded `while` loop of phase 3 is modelled
with an explicit fuel parameter: an execution that exhausts every fuel bound
corresponds to the JavaScript program never terminating (`Outcome.hung`).
A `null` key lookup (`references[null]`) is modelled as a failed lookup.
-/

/-- One input record of the flat JSON array (`type references` in the source,
without the `children` array added by phase 1). -/
structure NodeInput where
  nodeId : String
  name : String
  parentId : Option String
  previousSiblingId : Option String
  deriving DecidableEq, Repr

/-- A node as stored in `references` by phase 1: the input record plus the
`children` list.  Children are tracked by their `nodeId`s; the JavaScript
original stores object references, which are uniquely identified by their
key in `references`. -/
structure NodeRecord where
  nodeId : String
  name : String
  parentId : Option String
  previousSiblingId : Option String
  children : List String
  deriving DecidableEq, Repr

/-- Per-node metadata stored in `metaData` (the `hasBeenPlaced` field
declared in the source comment is never used by the code). -/
structure NodeMeta where
  isLastNode : Bool
  childrenAreSorted : Bool
  deriving DecidableEq, Repr

/-- A JavaScript object used as a string-keyed map. -/
abbrev Store (α : Type) : Type := List (String × α)

/-- Property read `obj[key]`: the value bound to `key`, if any. -/
def Store.lookup {α : Type} : Store α → String → Option α
  | [], _ => none
  | (k, v) :: t, key => if k = key then some v else Store.lookup t key

/-- Property write `obj[key] = v`: replaces the value of an existing key in
place, appends a binding for a fresh key. -/
def Store.insert {α : Type} : Store α → String → α → Store α
  | [], key, v => [(key, v)]
  | (k, w) :: t, key, v => if k = key then (k, v) :: t else (k, w) :: Store.insert t key v

/-- The key list `Object.keys(obj)`. -/
def Store.keys {α : Type} (s : Store α) : List String := s.map Prod.fst

/-- Property read with a possibly null key, `obj[x]` for
`x : string | null`: a null key never hits a binding. -/
def Store.lookupOpt {α : Type} (s : Store α) : Option String → Option α
  | none => none
  | some k => s.lookup k

/-- Result of running a phase of the program.  `crash` models a thrown
`TypeError` (a property access on `undefined`), `hung` models an execution
that ran out of fuel, i.e. a `while` loop that never exits. -/
inductive Outcome (α : Type) where
  | ok (a : α)
  | crash
  | hung
  deriving DecidableEq, Repr

/-- The mutable state of `buildTree` between statements: the two stores, the
result array `tree` (as a list of root `nodeId`s) and the
`rootTreeIsSorted` flag. -/
structure BuildState where
  references : Store NodeRecord
  metaData : Store NodeMeta
  tree : List String
  rootTreeIsSorted : Bool
  deriving DecidableEq, Repr

/-- Line 38 of the source: `references[node.nodeId] = {...node, children: []}`. -/
def toRecord (n : NodeInput) : NodeRecord :=
  { nodeId := n.nodeId, name := n.name, parentId := n.parentId,
    previousSiblingId := n.previousSiblingId, children := [] }

/-- Phase 1, the `references` store: one pass over the input, later records
overwrite earlier ones with the same `nodeId`. -/
def phase1Refs (nodes : List NodeInput) : Store NodeRecord :=
  nodes.foldl (fun r n => r.insert n.nodeId (toRecord n)) []

/-- Phase 1, the `metaData` store:
`metaData[node.nodeId] = {isLastNode: true, childrenAreSorted: false}`. -/
def phase1Meta (nodes : List NodeInput) : Store NodeMeta :=
  nodes.foldl (fun m n => m.insert n.nodeId { isLastNode := true, childrenAreSorted := false }) []

/-- One phase-2 iteration (lines 59-63 of the source): look up the node named
by `previousSiblingId` and, if it exists in `references`, clear its
`isLastNode` flag.  The source reads `metaData[node.previousSiblingId]` for
the update; after phase 1 the two stores have identical keys, so the inner
`none` case is unreachable and modelled as a no-op. -/
def phase2Step (refs : Store NodeRecord) (m : Store NodeMeta) (n : NodeInput) : Store NodeMeta :=
  match n.previousSiblingId with
  | none => m
  | some q =>
    match refs.lookup q with
    | none => m
    | some _ =>
      match m.lookup q with
      | none => m
      | some mm => m.insert q { mm with isLastNode := false }

/-- The `metaData` store after phases 1 and 2. -/
def phase2Meta (nodes : List NodeInput) : Store NodeMeta :=
  nodes.foldl (phase2Step (phase1Refs nodes)) (phase1Meta nodes)

/-- The phase-3 backward walk (lines 92-95 of the source):
`while (nodeRef){ sortedChildren.unshift(nodeRef); nodeRef = references[nodeRef.previousSiblingId] }`.
Fuel bounds the number of iterations; `none` means the loop was still
running when the fuel ran out. -/
def chainWalk (refs : Store NodeRecord) : Nat → Option NodeRecord → List String → Option (List String)
  | _, none, acc => some acc
  | 0, some _, _ => none
  | fuel + 1, some nr, acc =>
    chainWalk refs fuel (refs.lookupOpt nr.previousSiblingId) (nr.nodeId :: acc)

/-- Lines 99-104 of the source.  `if (initialNodeRef.parentId)` tests string
truthiness, so a `null` or empty `parentId` selects the root branch; a
non-empty `parentId` dereferences `references[parentId]`, which throws a
`TypeError` when the parent id is dangling. -/
def placeChildren (s : BuildState) (parentId : Option String) (cs : List String) : Outcome BuildState :=
  match parentId with
  | some p =>
    if p = "" then
      Outcome.ok { s with tree := cs, rootTreeIsSorted := true }
    else
      match s.references.lookup p with
      | some prec =>
        Outcome.ok { s with references := s.references.insert p { prec with children := cs } }
      | none => Outcome.crash
  | none => Outcome.ok { s with tree := cs, rootTreeIsSorted := true }

/-- The walk-and-attach tail of a phase-3 iteration (lines 89-105).  `pm?` is
the `parentMeta` captured at line 83 when `parentRef` was truthy; line 105
(`if (parentRef) parentMeta.childrenAreSorted = true`) fires exactly when it
is `some`.  The `(some _, none)` case cannot arise (a truthy `parentRef`
forces a non-null `parentId`). -/
def assemble (fuel : Nat) (s : BuildState) (initRef : NodeRecord) (pm? : Option NodeMeta) :
    Outcome BuildState :=
  match chainWalk s.references fuel (some initRef) [] with
  | none => Outcome.hung
  | some sortedChildren =>
    match placeChildren s initRef.parentId sortedChildren with
    | Outcome.ok s2 =>
      match pm?, initRef.parentId with
      | some pm, some p =>
        Outcome.ok { s2 with metaData := s2.metaData.insert p { pm with childrenAreSorted := true } }
      | some _, none => Outcome.crash
      | none, _ => Outcome.ok s2
    | r => r

/-- One phase-3 iteration (lines 74-107): skip nodes that are not last,
skip sibling groups already sorted (`childrenAreSorted` on the parent, or
`rootTreeIsSorted` when the node has no resolvable parent), otherwise walk
and attach.  Reading `parentMeta.childrenAreSorted` when `parentRef` is
truthy but `parentMeta` is `undefined` is a `TypeError`. -/
def phase3Step (fuel : Nat) (s : BuildState) (nodeId : String) : Outcome BuildState :=
  match s.references.lookup nodeId, s.metaData.lookup nodeId with
  | some initRef, some nodeMeta =>
    if nodeMeta.isLastNode then
      match s.references.lookupOpt initRef.parentId, s.metaData.lookupOpt initRef.parentId with
      | some _, none => Outcome.crash
      | some _, some pm =>
        if pm.childrenAreSorted then Outcome.ok s else assemble fuel s initRef (some pm)
      | none, _ =>
        if s.rootTreeIsSorted then Outcome.ok s else assemble fuel s initRef none
    else Outcome.ok s
  | _, _ => Outcome.crash

/-- Phase 3: `Object.keys(references).forEach(...)`. -/
def runKeys (fuel : Nat) : List String → BuildState → Outcome BuildState
  | [], s => Outcome.ok s
  | k :: ks, s =>
    match phase3Step fuel s k with
    | Outcome.ok s1 => runKeys fuel ks s1
    | r => r

/-- The whole transformation (without the file I/O boundary): phases 1-3 on
the parsed input array.  The resulting `tree` field is the root-level output
array. -/
def buildTreeModel (nodes : List NodeInput) (fuel : Nat) : Outcome BuildState :=
  let refs := phase1Refs nodes
  let meta := phase2Meta nodes
  runKeys fuel refs.keys
    { references := refs, metaData := meta, tree := [], rootTreeIsSorted := false }

/-- The transformation runs forever on this input: no fuel bound suffices. -/
def Diverges (nodes : List NodeInput) : Prop :=
  ∀ fuel : Nat, buildTreeModel nodes fuel = Outcome.hung

/-- Consecutive-link check for a sibling run listed left to right: every
node after `a` names its left neighbour as `previousSiblingId`. -/
def chainFromB : NodeInput → List NodeInput → Bool
  | _, [] => true
  | a, b :: t => (b.previousSiblingId == some a.nodeId) && chainFromB b t

/-- A sibling run listed left to right is a backward chain: the first node
has no previous sibling and each later node names its left neighbour. -/
def isChainB : List NodeInput → Bool
  | [] => true
  | c :: t => (c.previousSiblingId == none) && chainFromB c t

/-- The sibling group of parent reference `p`: the input records whose
`parentId` equals `p`, in input order. -/
def siblingGroup (nodes : List NodeInput) (p : Option String) : List NodeInput :=
  nodes.filter (fun n => n.parentId == p)

/-- `chains p` lists the sibling group of `p` in its intended left-to-right
order: it is a permutation of the group and a backward chain. -/
def GroupOK (nodes : List NodeInput) (chains : Option String → List NodeInput)
    (p : Option String) : Prop :=
  (chains p).Perm (siblingGroup nodes p) ∧ isChainB (chains p) = true

/-- A node's `parentId` is either null or the id of some input node. -/
def parentResolvesB (nodes : List NodeInput) (n : NodeInput) : Bool :=
  match n.parentId with
  | none => true
  | some P => (nodes.map (fun m => m.nodeId)).contains P

/-- The well-formedness invariants of the specification's data model
(section 3): unique non-empty node ids, resolvable parent references, and
every sibling group ordered by an acyclic backward chain that terminates at
a node with a null `previousSiblingId`.  The chain orderings are supplied by
the function `chains`. -/
def WellFormed (nodes : List NodeInput) (chains : Option String → List NodeInput) : Prop :=
  (nodes.map (fun n => n.nodeId)).Nodup ∧
  (∀ n ∈ nodes, n.nodeId ≠ "") ∧
  (∀ n ∈ nodes, parentResolvesB nodes n = true) ∧
  GroupOK nodes chains none ∧
  (∀ P ∈ nodes.map (fun n => n.nodeId), GroupOK nodes chains (some P))

/-- The left-to-right id sequence of the sibling group of `p`. -/
def chainIds (chains : Option String → List NodeInput) (p : Option String) : List String :=
  (chains p).map (fun n => n.nodeId)

/-- Every record of the store is filed under its own `nodeId`. -/
def KeysConsistent (refs : Store NodeRecord) : Prop :=
  ∀ k r, refs.lookup k = some r → r.nodeId = k

/-- The sibling group of `p` has been installed: the parent's
`childrenAreSorted` flag (or `rootTreeIsSorted` for the root level) is set. -/
def AssembledFlag (s : BuildState) : Option String → Prop
  | none => s.rootTreeIsSorted = true
  | some P => ∃ m, s.metaData.lookup P = some m ∧ m.childrenAreSorted = true

/-- The phase-3 loop invariant for a well-formed input, with `rest` the keys
not yet visited: the stores keep the keys and fields laid down by phases 1-2,
`isLastNode` still says "no node names me as previous sibling", a set
`childrenAreSorted` flag means the group is installed in left-to-right order
(and a clear flag means the `children` array is still empty, likewise for
the root list), and every nonempty sibling group either still has its
terminal node unvisited or is already installed. -/
def Phase3Inv (nodes : List NodeInput) (chains : Option String → List NodeInput)
    (s : BuildState) (rest : List String) : Prop :=
  (∀ id : String, (∃ n ∈ nodes, n.nodeId = id) ↔ (s.references.lookup id).isSome = true) ∧
  (∀ id r, s.references.lookup id = some r →
    ∃ n ∈ nodes, n.nodeId = id ∧ r.nodeId = n.nodeId ∧ r.parentId = n.parentId ∧
      r.previousSiblingId = n.previousSiblingId) ∧
  (∀ id : String, (∃ n ∈ nodes, n.nodeId = id) ↔ (s.metaData.lookup id).isSome = true) ∧
  (∀ id m, s.metaData.lookup id = some m →
    (m.isLastNode = true ↔ ¬∃ n ∈ nodes, n.previousSiblingId = some id)) ∧
  (∀ P m, s.metaData.lookup P = some m →
    ∃ r, s.references.lookup P = some r ∧
      r.children = (if m.childrenAreSorted then chainIds chains (some P) else [])) ∧
  (s.tree = (if s.rootTreeIsSorted then chainIds chains none else [])) ∧
  (∀ p : Option String, (∃ n ∈ nodes, n.parentId = p) →
    (∃ t, (chains p).getLast? = some t ∧ t.nodeId ∈ rest) ∨ AssembledFlag s p)

/-- A visited node is guarded: its step is a no-op because it is not a last
node, or its sibling group is already flagged as sorted. -/
def StepNoopGuard (s : BuildState) (id : String) : Prop :=
  ∃ r m, s.references.lookup id = some r ∧ s.metaData.lookup id = some m ∧
    (m.isLastNode = true →
      (∃ pr pm, s.references.lookupOpt r.parentId = some pr ∧
        s.metaData.lookupOpt r.parentId = some pm ∧ pm.childrenAreSorted = true) ∨
      (s.references.lookupOpt r.parentId = none ∧ s.rootTreeIsSorted = true))

/-- Phase 3 only grows the state: keys are stable, the non-`children` fields
of every record are stable, `isLastNode` is stable, and the sorted flags
only ever switch on. -/
def Mono (s s' : BuildState) : Prop :=
  (∀ id r, s.references.lookup id = some r →
    ∃ r', s'.references.lookup id = some r' ∧ r'.nodeId = r.nodeId ∧ r'.name = r.name ∧
      r'.parentId = r.parentId ∧ r'.previousSiblingId = r.previousSiblingId) ∧
  (∀ id, s.references.lookup id = none → s'.references.lookup id = none) ∧
  (∀ id m, s.metaData.lookup id = some m →
    ∃ m', s'.metaData.lookup id = some m' ∧ m'.isLastNode = m.isLastNode ∧
      (m.childrenAreSorted = true → m'.childrenAreSorted = true)) ∧
  (∀ id, s.metaData.lookup id = none → s'.metaData.lookup id = none) ∧
  (s.rootTreeIsSorted = true → s'.rootTreeIsSorted = true)

/-- A well-formed example: root node `P` with the four-child backward chain
`A ← B ← C ← D`. -/
def exP : NodeInput := ⟨"P", "p", none, none⟩

def exA : NodeInput := ⟨"A", "a", some "P", none⟩

def exB : NodeInput := ⟨"B", "b", some "P", some "A"⟩

def exC : NodeInput := ⟨"C", "c", some "P", some "B"⟩

def exD : NodeInput := ⟨"D", "d", some "P", some "C"⟩

def exNodes : List NodeInput := [exP, exA, exB, exC, exD]

def exChains : Option String → List NodeInput
  | none => [exP]
  | some p => if p = "P" then [exA, exB, exC, exD] else []

/-- A cyclic sibling chain reachable from the terminal node `D`:
`D` names `C`, while `B` and `C` name each other. -/
def cycNodes : List NodeInput :=
  [⟨"B", "b", none, some "C"⟩, ⟨"C", "c", none, some "B"⟩, ⟨"D", "d", none, some "C"⟩]

/-- A single node whose `parentId` names no existing node. -/
def danglingParentNodes : List NodeInput := [⟨"X", "x", some "ghost", none⟩]

/-- A self-cycle node `S` together with a node `X` whose chain reaches it. -/
def selfCycleNodes : List NodeInput :=
  [⟨"S", "s", none, some "S"⟩, ⟨"X", "x", none, some "S"⟩]

/-- A self-cycle node alone. -/
def selfOnlyNodes : List NodeInput := [⟨"S", "s", none, some "S"⟩]

/-- A duplicated `nodeId`: the two records differ in `name`. -/
def dupNodes : List NodeInput := [⟨"X", "first", none, none⟩, ⟨"X", "second", none, none⟩]

/-- The invariant for the self-cycle analysis (claim C10): the store files
records under their own ids, the record of `sid` points to itself as
previous sibling, and `sid` occurs neither in the root list nor in any
`children` list. -/
def SelfLoopInv (sid : String) (s : BuildState) : Prop :=
  KeysConsistent s.references ∧
  (∃ r, s.references.lookup sid = some r ∧ r.previousSiblingId = some sid) ∧
  sid ∉ s.tree ∧
  (∀ id rec, s.references.lookup id = some rec → sid ∉ rec.children)

/-! ### Store lemmas -/

theorem Store.lookup_insert {α : Type} (s : Store α) (k k' : String) (v : α) :
    (s.insert k v).lookup k' = if k = k' then some v else s.lookup k' := by
  induction s with
  | nil => simp [Store.insert, Store.lookup]
  | cons hd t ih =>
    obtain ⟨a, w⟩ := hd
    by_cases hak : a = k
    · subst hak
      by_cases hk : a = k'
      · subst hk; simp [Store.insert, Store.lookup]
      · simp [Store.insert, Store.lookup, hk]
    · by_cases hk : a = k'
      · subst hk
        have hkk : ¬k = a := fun h => hak h.symm
        simp [Store.insert, Store.lookup, hak, hkk]
      · simp [Store.insert, Store.lookup, hak, hk, ih]

theorem Store.lookup_insert_self {α : Type} (s : Store α) (k : String) (v : α) :
    (s.insert k v).lookup k = some v := by
  simp [Store.lookup_insert]

theorem Store.lookup_insert_ne {α : Type} (s : Store α) (k k' : String) (v : α)
    (h : k ≠ k') : (s.insert k v).lookup k' = s.lookup k' := by
  simp [Store.lookup_insert, h]

theorem Store.mem_keys_iff {α : Type} (s : Store α) (k : String) :
    k ∈ s.keys ↔ (s.lookup k).isSome = true := by
  induction s with
  | nil => simp [Store.keys, Store.lookup]
  | cons hd t ih =>
    obtain ⟨a, w⟩ := hd
    by_cases h : a = k
    · subst h; simp [Store.keys, Store.lookup]
    · have hkeys : Store.keys ((a, w) :: t) = a :: Store.keys t := rfl
      have hlk : Store.lookup ((a, w) :: t) k = Store.lookup t k := by
        simp [Store.lookup, h]
      rw [hkeys, hlk, List.mem_cons]
      constructor
      · rintro (h1 | h1)
        · exact absurd h1.symm h
        · exact ih.mp h1
      · intro h1
        exact Or.inr (ih.mpr h1)

theorem Store.keys_insert_of_isSome {α : Type} (s : Store α) (k : String) (v : α)
    (h : (s.lookup k).isSome = true) : (s.insert k v).keys = s.keys := by
  induction s with
  | nil => simp [Store.lookup] at h
  | cons hd t ih =>
    obtain ⟨a, w⟩ := hd
    by_cases hak : a = k
    · subst hak; simp [Store.insert, Store.keys]
    · simp [Store.lookup, hak] at h
      simp [Store.insert, Store.keys, hak] at ih ⊢
      exact ih h

/-! ### List helper lemmas -/

theorem find?_append_or {α : Type} (l1 l2 : List α) (p : α → Bool) :
    (l1 ++ l2).find? p = ((l1.find? p).or (l2.find? p)) := by
  induction l1 with
  | nil => simp [List.find?]
  | cons a t ih =>
    by_cases h : p a
    · simp [List.find?, h, Option.or]
    · simp only [List.cons_append, List.find?]
      rw [Bool.not_eq_true] at h
      simp [h, ih]

/-! ### Phase 1 characterization: the stores keep the latest record per id -/

theorem foldl_insert_lookup {α : Type} (f : NodeInput → α) (nodes : List NodeInput)
    (acc : Store α) (id : String) :
    (nodes.foldl (fun r n => r.insert n.nodeId (f n)) acc).lookup id =
      match nodes.reverse.find? (fun n => n.nodeId == id) with
      | some n => some (f n)
      | none => acc.lookup id := by
  induction nodes generalizing acc with
  | nil => simp
  | cons n t ih =>
    simp only [List.foldl_cons, List.reverse_cons]
    rw [ih, find?_append_or]
    cases h : t.reverse.find? (fun n => n.nodeId == id) with
    | some m => simp [Option.or]
    | none =>
      by_cases hid : n.nodeId = id
      · simp [List.find?, hid, Option.or, Store.lookup_insert]
      · have : (n.nodeId == id) = false := by simp [hid]
        simp [List.find?, this, Option.or, Store.lookup_insert, hid]

theorem phase1Refs_lookup (nodes : List NodeInput) (id : String) :
    (phase1Refs nodes).lookup id =
      (nodes.reverse.find? (fun n => n.nodeId == id)).map toRecord := by
  rw [phase1Refs, foldl_insert_lookup]
  cases nodes.reverse.find? (fun n => n.nodeId == id) <;> simp [Store.lookup]

theorem phase1Meta_lookup (nodes : List NodeInput) (id : String) :
    (phase1Meta nodes).lookup id =
      (nodes.reverse.find? (fun n => n.nodeId == id)).map
        (fun _ => { isLastNode := true, childrenAreSorted := false }) := by
  rw [phase1Meta, foldl_insert_lookup]
  cases nodes.reverse.find? (fun n => n.nodeId == id) <;> simp [Store.lookup]

theorem phase1Refs_isSome (nodes : List NodeInput) (id : String) :
    ((phase1Refs nodes).lookup id).isSome = true ↔ ∃ n ∈ nodes, n.nodeId = id := by
  rw [phase1Refs_lookup]
  simp [List.find?_isSome]

theorem phase1Refs_eq_some (nodes : List NodeInput) (id : String) (r : NodeRecord)
    (h : (phase1Refs nodes).lookup id = some r) :
    ∃ n ∈ nodes, n.nodeId = id ∧ r = toRecord n := by
  rw [phase1Refs_lookup] at h
  cases hf : nodes.reverse.find? (fun n => n.nodeId == id) with
  | none => rw [hf] at h; simp at h
  | some n =>
    rw [hf] at h
    have hmem : n ∈ nodes := List.mem_reverse.mp (List.mem_of_find?_eq_some hf)
    have hid : n.nodeId = id := by
      have := List.find?_some hf
      simpa using this
    simp at h
    exact ⟨n, hmem, hid, h.symm⟩

theorem phase1Meta_isSome (nodes : List NodeInput) (id : String) :
    ((phase1Meta nodes).lookup id).isSome = true ↔ ∃ n ∈ nodes, n.nodeId = id := by
  rw [phase1Meta_lookup]
  simp [List.find?_isSome]

/-! ### Phase 2 characterization -/

theorem phase2_fold (refs : Store NodeRecord) (todo : List NodeInput) :
    ∀ (m : Store NodeMeta) (f : String → Bool),
      (∀ id, (refs.lookup id).isSome = true → m.lookup id = some ⟨f id, false⟩) →
      ∀ id, (refs.lookup id).isSome = true →
        (todo.foldl (phase2Step refs) m).lookup id =
          some ⟨f id && !(todo.any fun n => n.previousSiblingId == some id), false⟩ := by
  induction todo with
  | nil =>
    intro m f hm id hid
    simpa using hm id hid
  | cons n t ih =>
    intro m f hm id hid
    simp only [List.foldl_cons]
    cases hprev : n.previousSiblingId with
    | none =>
      have hstep : phase2Step refs m n = m := by simp [phase2Step, hprev]
      rw [hstep, ih m f hm id hid]
      simp [List.any_cons, hprev]
    | some q =>
      cases hq : refs.lookup q with
      | none =>
        have hstep : phase2Step refs m n = m := by simp [phase2Step, hprev, hq]
        rw [hstep, ih m f hm id hid]
        have hne : (q == id) = false := by
          by_cases h : q = id
          · subst h; rw [hq] at hid; simp at hid
          · simp [h]
        simp [List.any_cons, hprev, hne]
      | some rq =>
        have hmq : m.lookup q = some ⟨f q, false⟩ := hm q (by simp [hq])
        have hstep : phase2Step refs m n =
            m.insert q { isLastNode := false, childrenAreSorted := false } := by
          simp [phase2Step, hprev, hq, hmq]
        rw [hstep]
        have hinv : ∀ id', (refs.lookup id').isSome = true →
            (m.insert q { isLastNode := false, childrenAreSorted := false }).lookup id' =
              some ⟨(fun j => f j && !(q == j)) id', false⟩ := by
          intro id' hid'
          by_cases h : q = id'
          · subst h
            simp [Store.lookup_insert_self]
          · rw [Store.lookup_insert_ne _ _ _ _ h, hm id' hid']
            simp [h]
        rw [ih _ _ hinv id hid]
        have : (n.previousSiblingId == some id) = (q == id) := by
          simp [hprev]
        simp only [List.any_cons, this]
        congr 1
        cases hqi : (q == id) <;> cases hf : f id <;>
          cases ht : (t.any fun n => n.previousSiblingId == some id) <;> simp [hqi, hf, ht]

theorem phase2Meta_lookup (nodes : List NodeInput) (id : String)
    (h : ∃ n ∈ nodes, n.nodeId = id) :
    (phase2Meta nodes).lookup id =
      some ⟨!(nodes.any fun n => n.previousSiblingId == some id), false⟩ := by
  have hid : ((phase1Refs nodes).lookup id).isSome = true := (phase1Refs_isSome nodes id).mpr h
  have hbase : ∀ j, ((phase1Refs nodes).lookup j).isSome = true →
      (phase1Meta nodes).lookup j = some ⟨(fun _ => true) j, false⟩ := by
    intro j hj
    rw [phase1Refs_lookup] at hj
    rw [phase1Meta_lookup]
    cases hf : nodes.reverse.find? (fun n => n.nodeId == j) with
    | none => rw [hf] at hj; simp at hj
    | some n => simp
  have := phase2_fold (phase1Refs nodes) nodes (phase1Meta nodes) (fun _ => true) hbase id hid
  rw [phase2Meta]
  rw [this]
  simp

theorem phase2_preserves_none (refs : Store NodeRecord) (todo : List NodeInput)
    (m : Store NodeMeta) (id : String) (h : m.lookup id = none) :
    (todo.foldl (phase2Step refs) m).lookup id = none := by
  induction todo generalizing m with
  | nil => simpa using h
  | cons n t ih =>
    simp only [List.foldl_cons]
    apply ih
    cases hprev : n.previousSiblingId with
    | none => simpa [phase2Step, hprev] using h
    | some q =>
      cases hq : refs.lookup q with
      | none => simpa [phase2Step, hprev, hq] using h
      | some rq =>
        cases hmq : m.lookup q with
        | none => simpa [phase2Step, hprev, hq, hmq] using h
        | some mm =>
          have hne : q ≠ id := by
            intro he; subst he; rw [h] at hmq; exact Option.noConfusion hmq
          have hstep : phase2Step refs m n = m.insert q { mm with isLastNode := false } := by
            simp [phase2Step, hprev, hq, hmq]
          rw [hstep, Store.lookup_insert_ne _ _ _ _ hne]
          exact h

theorem phase2Meta_isSome (nodes : List NodeInput) (id : String) :
    ((phase2Meta nodes).lookup id).isSome = true ↔ ∃ n ∈ nodes, n.nodeId = id := by
  constructor
  · intro h
    by_contra hc
    have hnone : (phase1Meta nodes).lookup id = none := by
      cases hm : (phase1Meta nodes).lookup id with
      | none => rfl
      | some v =>
        exact absurd ((phase1Meta_isSome nodes id).mp (by simp [hm])) hc
    rw [phase2Meta, phase2_preserves_none _ _ _ _ hnone] at h
    simp at h
  · intro h
    rw [phase2Meta_lookup nodes id h]
    simp

/-! ### Generic stepping lemmas for phase 3 -/

theorem runKeys_cons_eq (fuel : Nat) (k : String) (ks : List String) (s : BuildState) :
    runKeys fuel (k :: ks) s =
      (match phase3Step fuel s k with
       | Outcome.ok s1 => runKeys fuel ks s1
       | r => r) := rfl

theorem assemble_of_walk_none (fuel : Nat) (s : BuildState) (initRef : NodeRecord)
    (pm? : Option NodeMeta) (h : chainWalk s.references fuel (some initRef) [] = none) :
    assemble fuel s initRef pm? = Outcome.hung := by
  unfold assemble
  rw [h]

theorem chainWalk_none (refs : Store NodeRecord) (fuel : Nat) (acc : List String) :
    chainWalk refs fuel none acc = some acc := by
  cases fuel <;> rfl

/-! ### The cyclic chain of `cycNodes` makes the backward walk diverge -/

theorem cyc_walk_none : ∀ (fuel : Nat) (acc : List String),
    chainWalk (phase1Refs cycNodes) fuel
      (some (⟨"C", "c", none, some "B", []⟩ : NodeRecord)) acc = none ∧
    chainWalk (phase1Refs cycNodes) fuel
      (some (⟨"B", "b", none, some "C", []⟩ : NodeRecord)) acc = none := by
  intro fuel
  induction fuel with
  | zero => intro acc; exact ⟨rfl, rfl⟩
  | succ f ih =>
    intro acc
    constructor
    · have e : chainWalk (phase1Refs cycNodes) (f + 1)
          (some (⟨"C", "c", none, some "B", []⟩ : NodeRecord)) acc =
          chainWalk (phase1Refs cycNodes) f
            (some (⟨"B", "b", none, some "C", []⟩ : NodeRecord)) ("C" :: acc) := rfl
      rw [e]
      exact (ih ("C" :: acc)).2
    · have e : chainWalk (phase1Refs cycNodes) (f + 1)
          (some (⟨"B", "b", none, some "C", []⟩ : NodeRecord)) acc =
          chainWalk (phase1Refs cycNodes) f
            (some (⟨"C", "c", none, some "B", []⟩ : NodeRecord)) ("B" :: acc) := rfl
      rw [e]
      exact (ih ("B" :: acc)).1

/-- C2: the claim demands that the tree-assembly phase terminate on every
input, a cyclic `previousSiblingId` chain ending in a reported fault.  The
code violates this: on `cycNodes` (terminal node `D` chains into the
`B`-`C` cycle) the backward walk of phase 3 runs forever — the model returns
`hung` for every fuel bound, so no finite execution completes.  The
specification's own error-handling section concedes this ("currently causes
non-termination"), so the code, not the claim, is at fault. -/
theorem c2_cyclic_chain_diverges : Diverges cycNodes := by
  intro fuel
  have hD : phase3Step fuel
      { references := phase1Refs cycNodes, metaData := phase2Meta cycNodes,
        tree := [], rootTreeIsSorted := false } "D" = Outcome.hung := by
    have e1 : phase3Step fuel
        { references := phase1Refs cycNodes, metaData := phase2Meta cycNodes,
          tree := [], rootTreeIsSorted := false } "D" =
        assemble fuel
          { references := phase1Refs cycNodes, metaData := phase2Meta cycNodes,
            tree := [], rootTreeIsSorted := false }
          ⟨"D", "d", none, some "C", []⟩ none := rfl
    rw [e1]
    apply assemble_of_walk_none
    show chainWalk (phase1Refs cycNodes) fuel
      (some (⟨"D", "d", none, some "C", []⟩ : NodeRecord)) [] = none
    cases fuel with
    | zero => rfl
    | succ f =>
      have e2 : chainWalk (phase1Refs cycNodes) (f + 1)
          (some (⟨"D", "d", none, some "C", []⟩ : NodeRecord)) [] =
          chainWalk (phase1Refs cycNodes) f
            (some (⟨"C", "c", none, some "B", []⟩ : NodeRecord)) ["D"] := rfl
      rw [e2]
      exact (cyc_walk_none f ["D"]).1
  have hrun : buildTreeModel cycNodes fuel =
      runKeys fuel ["D"]
        { references := phase1Refs cycNodes, metaData := phase2Meta cycNodes,
          tree := [], rootTreeIsSorted := false } := rfl
  rw [hrun, runKeys_cons_eq, hD]

/-- C9: an empty input array produces an empty output array: the root list
keeps its initial empty value and the run completes for any fuel bound. -/
theorem c9_empty_input : ∀ fuel : Nat,
    buildTreeModel [] fuel =
      Outcome.ok { references := [], metaData := [], tree := [], rootTreeIsSorted := false } :=
  fun _ => rfl

/-- C8: a duplicated `nodeId` makes phase 1 keep only the later record: both
the `references` and the `metaData` entry for that id come from `b`, so the
earlier record `a` is silently overwritten in both mappings. -/
theorem c8_duplicate_overwrites (l1 l2 l3 : List NodeInput) (a b : NodeInput)
    (_hab : a.nodeId = b.nodeId)
    (hl3 : ∀ c ∈ l3, c.nodeId ≠ b.nodeId) :
    (phase1Refs (l1 ++ [a] ++ l2 ++ [b] ++ l3)).lookup b.nodeId = some (toRecord b) ∧
    (phase1Meta (l1 ++ [a] ++ l2 ++ [b] ++ l3)).lookup b.nodeId =
      some { isLastNode := true, childrenAreSorted := false } := by
  have hrev : (l1 ++ [a] ++ l2 ++ [b] ++ l3).reverse =
      l3.reverse ++ ([b] ++ (l2.reverse ++ ([a] ++ l1.reverse))) := by
    simp
  have hfind : (l1 ++ [a] ++ l2 ++ [b] ++ l3).reverse.find?
      (fun n => n.nodeId == b.nodeId) = some b := by
    rw [hrev, find?_append_or]
    have h3 : l3.reverse.find? (fun n => n.nodeId == b.nodeId) = none := by
      rw [List.find?_eq_none]
      intro c hc
      simp only [beq_iff_eq]
      exact hl3 c (List.mem_reverse.mp hc)
    rw [h3]
    have hb : ([b] ++ (l2.reverse ++ ([a] ++ l1.reverse))).find?
        (fun n => n.nodeId == b.nodeId) = some b := by
      simp [List.find?]
    rw [hb]
    rfl
  constructor
  · rw [phase1Refs_lookup, hfind]
    rfl
  · rw [phase1Meta_lookup, hfind]
    rfl

/-- C8 witness: with two records sharing `nodeId` `X`, the index keeps the
later record (`name = second`) in both stores. -/
theorem c8_witness :
    (phase1Refs dupNodes).lookup "X" = some (toRecord ⟨"X", "second", none, none⟩) ∧
    (phase1Meta dupNodes).lookup "X" = some { isLastNode := true, childrenAreSorted := false } :=
  c8_duplicate_overwrites [] [] [] ⟨"X", "first", none, none⟩ ⟨"X", "second", none, none⟩ rfl
    (by simp)

/-- C4 fails as stated: in `selfOnlyNodes` the single node `S` names itself
as `previousSiblingId`; no other node names it, yet after phase 2 its
`isLastNode` flag is `false` — the claimed "no other node names it"
characterization demands `true`. -/
theorem c4_self_reference_cex :
    (phase2Meta selfOnlyNodes).lookup "S" =
      some { isLastNode := false, childrenAreSorted := false } ∧
    (∀ n ∈ selfOnlyNodes, ¬(n.nodeId ≠ "S" ∧ n.previousSiblingId = some "S")) := by
  constructor
  · rfl
  · decide

/-- C4 amended: after phase 2, a node of the index has `isLastNode = true`
iff no node of the input — the node itself included — names it as
`previousSiblingId`.  (The claim said "no other node"; a self-reference
also clears the flag.) -/
theorem c4_amended_last_flag (nodes : List NodeInput) (id : String)
    (h : ∃ n ∈ nodes, n.nodeId = id) :
    ∃ m, (phase2Meta nodes).lookup id = some m ∧ m.childrenAreSorted = false ∧
      (m.isLastNode = true ↔ ∀ n ∈ nodes, n.previousSiblingId ≠ some id) := by
  rw [phase2Meta_lookup nodes id h]
  refine ⟨_, rfl, rfl, ?_⟩
  simp

/-- C4 amended, witness at `selfOnlyNodes` and id `S`: the flag is `false`
and indeed a node (namely `S` itself) names `S`. -/
theorem c4_amended_witness :
    (∃ n ∈ selfOnlyNodes, n.nodeId = "S") ∧
    ∃ m, (phase2Meta selfOnlyNodes).lookup "S" = some m ∧ m.childrenAreSorted = false ∧
      (m.isLastNode = true ↔ ∀ n ∈ selfOnlyNodes, n.previousSiblingId ≠ some "S") :=
  ⟨by decide, c4_amended_last_flag selfOnlyNodes "S" (by decide)⟩

/-- C3 fails as stated: a dangling `parentId` is not always silently
tolerated.  On `danglingParentNodes` the single node is terminal, its
`parentId` names no existing node, and the attach step of phase 3 executes
`references["ghost"].children = ...` on `undefined` — a thrown `TypeError`,
modelled as `crash`. -/
theorem c3_dangling_parent_cex : buildTreeModel danglingParentNodes 1 = Outcome.crash := rfl

/-- C3 amended: a dangling `previousSiblingId` is silently tolerated — the
backward walk treats it as "no previous sibling" and stops, keeping the run
collected so far.  A dangling `parentId`, however, is only tolerated on
nodes that never reach the attach step; when a walk does reach the attach
step with a dangling non-empty `parentId`, the program throws (`crash`). -/
theorem c3_amended_dangling :
    (∀ (refs : Store NodeRecord) (fuel : Nat) (nr : NodeRecord) (acc : List String) (q : String),
      nr.previousSiblingId = some q → refs.lookup q = none →
      chainWalk refs (fuel + 1) (some nr) acc = some (nr.nodeId :: acc)) ∧
    (∀ (s : BuildState) (p : String) (cs : List String),
      p ≠ "" → s.references.lookup p = none →
      placeChildren s (some p) cs = Outcome.crash) := by
  constructor
  · intro refs fuel nr acc q hq hlk
    have e : chainWalk refs (fuel + 1) (some nr) acc =
        chainWalk refs fuel (refs.lookupOpt nr.previousSiblingId) (nr.nodeId :: acc) := rfl
    rw [e, hq]
    show chainWalk refs fuel (refs.lookup q) (nr.nodeId :: acc) = _
    rw [hlk, chainWalk_none]
  · intro s p cs hp hlk
    simp [placeChildren, hp, hlk]

/-- C3 amended, witness: a walk over a node with a dangling previous-sibling
reference stops after that node, and attaching to a dangling parent id
crashes. -/
theorem c3_amended_witness :
    chainWalk [] 1 (some (⟨"X", "x", some "ghost", some "gone", []⟩ : NodeRecord)) [] =
      some ["X"] ∧
    placeChildren { references := [], metaData := [], tree := [], rootTreeIsSorted := false }
      (some "ghost") ["X"] = Outcome.crash :=
  ⟨c3_amended_dangling.1 [] 0 ⟨"X", "x", some "ghost", some "gone", []⟩ [] "gone" rfl rfl,
   c3_amended_dangling.2 _ "ghost" ["X"] (by decide) rfl⟩

/-! ### The self-cycle input `selfCycleNodes` also diverges -/

theorem selfS_walk_none : ∀ (fuel : Nat) (acc : List String),
    chainWalk (phase1Refs selfCycleNodes) fuel
      (some (⟨"S", "s", none, some "S", []⟩ : NodeRecord)) acc = none := by
  intro fuel
  induction fuel with
  | zero => intro acc; rfl
  | succ f ih =>
    intro acc
    have e : chainWalk (phase1Refs selfCycleNodes) (f + 1)
        (some (⟨"S", "s", none, some "S", []⟩ : NodeRecord)) acc =
        chainWalk (phase1Refs selfCycleNodes) f
          (some (⟨"S", "s", none, some "S", []⟩ : NodeRecord)) ("S" :: acc) := rfl
    rw [e]
    exact ih ("S" :: acc)

/-- C10 fails as stated: the claim asserts termination for any input
containing a self-cycle node.  In `selfCycleNodes` the extra node `X` chains
into the self-cycle `S`, the walk started at the terminal node `X` loops on
`S` forever, and the transformation never terminates (it is `hung` at every
fuel bound). -/
theorem c10_self_cycle_cex : Diverges selfCycleNodes := by
  intro fuel
  have hX : phase3Step fuel
      { references := phase1Refs selfCycleNodes, metaData := phase2Meta selfCycleNodes,
        tree := [], rootTreeIsSorted := false } "X" = Outcome.hung := by
    have e1 : phase3Step fuel
        { references := phase1Refs selfCycleNodes, metaData := phase2Meta selfCycleNodes,
          tree := [], rootTreeIsSorted := false } "X" =
        assemble fuel
          { references := phase1Refs selfCycleNodes, metaData := phase2Meta selfCycleNodes,
            tree := [], rootTreeIsSorted := false }
          ⟨"X", "x", none, some "S", []⟩ none := rfl
    rw [e1]
    apply assemble_of_walk_none
    show chainWalk (phase1Refs selfCycleNodes) fuel
      (some (⟨"X", "x", none, some "S", []⟩ : NodeRecord)) [] = none
    cases fuel with
    | zero => rfl
    | succ f =>
      have e2 : chainWalk (phase1Refs selfCycleNodes) (f + 1)
          (some (⟨"X", "x", none, some "S", []⟩ : NodeRecord)) [] =
          chainWalk (phase1Refs selfCycleNodes) f
            (some (⟨"S", "s", none, some "S", []⟩ : NodeRecord)) ["X"] := rfl
      rw [e2]
      exact selfS_walk_none f ["X"]
  have hrun : buildTreeModel selfCycleNodes fuel =
      runKeys fuel ["X"]
        { references := phase1Refs selfCycleNodes, metaData := phase2Meta selfCycleNodes,
          tree := [], rootTreeIsSorted := false } := rfl
  rw [hrun, runKeys_cons_eq, hX]

/-! ### Monotonicity of phase 3 and the no-op guard (claim C5) -/

theorem mono_refl (s : BuildState) : Mono s s :=
  ⟨fun _ r h => ⟨r, h, rfl, rfl, rfl, rfl⟩, fun _ h => h,
   fun _ m h => ⟨m, h, rfl, fun x => x⟩, fun _ h => h, fun x => x⟩

theorem mono_trans {s1 s2 s3 : BuildState} (h12 : Mono s1 s2) (h23 : Mono s2 s3) :
    Mono s1 s3 := by
  obtain ⟨a12, b12, c12, d12, e12⟩ := h12
  obtain ⟨a23, b23, c23, d23, e23⟩ := h23
  refine ⟨?_, ?_, ?_, ?_, ?_⟩
  · intro id r h
    obtain ⟨r2, h2, e1, e2, e3, e4⟩ := a12 id r h
    obtain ⟨r3, h3, f1, f2, f3, f4⟩ := a23 id r2 h2
    exact ⟨r3, h3, f1.trans e1, f2.trans e2, f3.trans e3, f4.trans e4⟩
  · exact fun id h => b23 id (b12 id h)
  · intro id m h
    obtain ⟨m2, h2, e1, e2⟩ := c12 id m h
    obtain ⟨m3, h3, f1, f2⟩ := c23 id m2 h2
    exact ⟨m3, h3, f1.trans e1, fun hx => f2 (e2 hx)⟩
  · exact fun id h => d23 id (d12 id h)
  · exact fun hx => e23 (e12 hx)

theorem mono_of_tree (s : BuildState) (cs : List String) :
    Mono s { s with tree := cs, rootTreeIsSorted := true } :=
  ⟨fun _ r h => ⟨r, h, rfl, rfl, rfl, rfl⟩, fun _ h => h,
   fun _ m h => ⟨m, h, rfl, fun x => x⟩, fun _ h => h, fun _ => rfl⟩

theorem mono_meta_insert (s : BuildState) (p : String) (pm mp : NodeMeta)
    (hlp : s.metaData.lookup p = some pm)
    (hlast : mp.isLastNode = pm.isLastNode)
    (hsort : pm.childrenAreSorted = true → mp.childrenAreSorted = true) :
    Mono s { s with metaData := s.metaData.insert p mp } := by
  refine ⟨fun _ r h => ⟨r, h, rfl, rfl, rfl, rfl⟩, fun _ h => h, ?_, ?_, fun x => x⟩
  · intro id m h
    by_cases hid : p = id
    · subst hid
      have hm : m = pm := by rw [h] at hlp; exact Option.some.inj hlp
      refine ⟨mp, ?_, ?_, ?_⟩
      · show (s.metaData.insert p mp).lookup p = some mp
        exact Store.lookup_insert_self _ _ _
      · rw [hlast, hm]
      · intro hx; exact hsort (hm ▸ hx)
    · refine ⟨m, ?_, rfl, fun x => x⟩
      show (s.metaData.insert p mp).lookup id = some m
      rw [Store.lookup_insert_ne _ _ _ _ hid]
      exact h
  · intro id h
    by_cases hid : p = id
    · subst hid; rw [hlp] at h; cases h
    · show (s.metaData.insert p mp).lookup id = none
      rw [Store.lookup_insert_ne _ _ _ _ hid]
      exact h

theorem mono_refs_insert (s : BuildState) (p : String) (prec rp : NodeRecord)
    (hlp : s.references.lookup p = some prec)
    (h1 : rp.nodeId = prec.nodeId) (h2 : rp.name = prec.name)
    (h3 : rp.parentId = prec.parentId) (h4 : rp.previousSiblingId = prec.previousSiblingId) :
    Mono s { s with references := s.references.insert p rp } := by
  refine ⟨?_, ?_, fun _ m h => ⟨m, h, rfl, fun x => x⟩, fun _ h => h, fun x => x⟩
  · intro id r h
    by_cases hid : p = id
    · subst hid
      have hr : r = prec := by rw [h] at hlp; exact Option.some.inj hlp
      refine ⟨rp, ?_, ?_, ?_, ?_, ?_⟩
      · show (s.references.insert p rp).lookup p = some rp
        exact Store.lookup_insert_self _ _ _
      · rw [h1, hr]
      · rw [h2, hr]
      · rw [h3, hr]
      · rw [h4, hr]
    · refine ⟨r, ?_, rfl, rfl, rfl, rfl⟩
      show (s.references.insert p rp).lookup id = some r
      rw [Store.lookup_insert_ne _ _ _ _ hid]
      exact h
  · intro id h
    by_cases hid : p = id
    · subst hid; rw [hlp] at h; cases h
    · show (s.references.insert p rp).lookup id = none
      rw [Store.lookup_insert_ne _ _ _ _ hid]
      exact h

theorem step_of_guard (fuel : Nat) (s : BuildState) (id : String)
    (h : StepNoopGuard s id) : phase3Step fuel s id = Outcome.ok s := by
  obtain ⟨r, m, hr, hm, hg⟩ := h
  cases hflag : m.isLastNode with
  | false => simp [phase3Step, hr, hm, hflag]
  | true =>
    rcases hg hflag with ⟨pr, pm, h4, h5, h6⟩ | ⟨h4, h5⟩
    · simp [phase3Step, hr, hm, hflag, h4, h5, h6]
    · simp [phase3Step, hr, hm, hflag, h4, h5]

theorem guard_mono {s s' : BuildState} {id : String} (hmono : Mono s s')
    (h : StepNoopGuard s id) : StepNoopGuard s' id := by
  obtain ⟨hra, hrn, hma, hmn, hroot⟩ := hmono
  obtain ⟨r, m, hr, hm, hg⟩ := h
  obtain ⟨r', hr', e1, e2, e3, e4⟩ := hra id r hr
  obtain ⟨m', hm', f1, f2⟩ := hma id m hm
  refine ⟨r', m', hr', hm', ?_⟩
  intro hflag
  rw [f1] at hflag
  rcases hg hflag with ⟨pr, pm, h4, h5, h6⟩ | ⟨h4, h5⟩
  · left
    cases hp : r.parentId with
    | none => rw [hp] at h4; cases h4
    | some p =>
      rw [hp] at h4 h5
      obtain ⟨pr', hpr', _, _, _, _⟩ := hra p pr h4
      obtain ⟨pm', hpm', g1, g2⟩ := hma p pm h5
      refine ⟨pr', pm', ?_, ?_, g2 h6⟩
      · rw [e3, hp]; exact hpr'
      · rw [e3, hp]; exact hpm'
  · right
    refine ⟨?_, hroot h5⟩
    rw [e3]
    cases hp : r.parentId with
    | none => rfl
    | some p =>
      rw [hp] at h4
      exact hrn p h4

theorem step_assemble_parent_props (fuel : Nat) (s : BuildState) (id : String)
    (s1 : BuildState) (r : NodeRecord) (m : NodeMeta) (pr : NodeRecord) (pm : NodeMeta)
    (hr : s.references.lookup id = some r) (hm : s.metaData.lookup id = some m)
    (hpr : s.references.lookupOpt r.parentId = some pr)
    (hpm : s.metaData.lookupOpt r.parentId = some pm)
    (ha : assemble fuel s r (some pm) = Outcome.ok s1) :
    Mono s s1 ∧ StepNoopGuard s1 id := by
  cases hp : r.parentId with
  | none => rw [hp] at hpr; cases hpr
  | some p =>
    have hlp : s.references.lookup p = some pr := by rw [hp] at hpr; exact hpr
    have hlmp : s.metaData.lookup p = some pm := by rw [hp] at hpm; exact hpm
    cases hw : chainWalk s.references fuel (some r) [] with
    | none => rw [assemble, hw] at ha; cases ha
    | some cs =>
      by_cases hpe : p = ""
      · subst hpe
        have hs1 : s1 =
            { s with
              tree := cs,
              rootTreeIsSorted := true,
              metaData := s.metaData.insert "" { pm with childrenAreSorted := true } } := by
          have ha' := ha
          simp [assemble, hw, placeChildren, hp] at ha'
          exact ha'.symm
        subst hs1
        constructor
        · exact mono_trans (mono_of_tree s cs)
            (mono_meta_insert { s with tree := cs, rootTreeIsSorted := true } ""
              pm { pm with childrenAreSorted := true } hlmp rfl (fun _ => rfl))
        · have hmid : ∃ m1, (s.metaData.insert "" { pm with childrenAreSorted := true }).lookup id
              = some m1 ∧ m1.isLastNode = m.isLastNode := by
            by_cases hid : "" = id
            · subst hid
              have hmeq : m = pm := by rw [hm] at hlmp; exact Option.some.inj hlmp
              exact ⟨_, Store.lookup_insert_self _ _ _, by rw [hmeq]⟩
            · exact ⟨m, by rw [Store.lookup_insert_ne _ _ _ _ hid]; exact hm, rfl⟩
          obtain ⟨m1, hm1, _⟩ := hmid
          refine ⟨r, m1, hr, hm1, ?_⟩
          intro _
          left
          refine ⟨pr, { pm with childrenAreSorted := true }, ?_, ?_, rfl⟩
          · show s.references.lookupOpt r.parentId = some pr
            exact hpr
          · show (s.metaData.insert "" { pm with childrenAreSorted := true }).lookupOpt r.parentId
              = some { pm with childrenAreSorted := true }
            rw [hp]
            exact Store.lookup_insert_self _ _ _
      · have hs1 : s1 =
            { s with
              references := s.references.insert p { pr with children := cs },
              metaData := s.metaData.insert p { pm with childrenAreSorted := true } } := by
          have ha' := ha
          simp [assemble, hw, placeChildren, hp, hpe, hlp] at ha'
          exact ha'.symm
        subst hs1
        constructor
        · exact mono_trans
            (mono_refs_insert s p pr { pr with children := cs } hlp rfl rfl rfl rfl)
            (mono_meta_insert
              { s with references := s.references.insert p { pr with children := cs } }
              p pm { pm with childrenAreSorted := true } hlmp rfl (fun _ => rfl))
        · have hrid : ∃ r1,
              (s.references.insert p { pr with children := cs }).lookup id = some r1 ∧
              r1.parentId = r.parentId := by
            by_cases hid : p = id
            · subst hid
              have hreq : r = pr := by rw [hr] at hlp; exact Option.some.inj hlp
              exact ⟨_, Store.lookup_insert_self _ _ _, by rw [hreq]⟩
            · exact ⟨r, by rw [Store.lookup_insert_ne _ _ _ _ hid]; exact hr, rfl⟩
          have hmid : ∃ m1,
              (s.metaData.insert p { pm with childrenAreSorted := true }).lookup id = some m1 ∧
              m1.isLastNode = m.isLastNode := by
            by_cases hid : p = id
            · subst hid
              have hmeq : m = pm := by rw [hm] at hlmp; exact Option.some.inj hlmp
              exact ⟨_, Store.lookup_insert_self _ _ _, by rw [hmeq]⟩
            · exact ⟨m, by rw [Store.lookup_insert_ne _ _ _ _ hid]; exact hm, rfl⟩
          obtain ⟨r1, hr1, hr1par⟩ := hrid
          obtain ⟨m1, hm1, _⟩ := hmid
          refine ⟨r1, m1, hr1, hm1, ?_⟩
          intro _
          left
          refine ⟨{ pr with children := cs }, { pm with childrenAreSorted := true }, ?_, ?_, rfl⟩
          · show (s.references.insert p { pr with children := cs }).lookupOpt r1.parentId = _
            rw [hr1par, hp]
            exact Store.lookup_insert_self _ _ _
          · show (s.metaData.insert p { pm with childrenAreSorted := true }).lookupOpt r1.parentId = _
            rw [hr1par, hp]
            exact Store.lookup_insert_self _ _ _

theorem step_assemble_root_props (fuel : Nat) (s : BuildState) (id : String)
    (s1 : BuildState) (r : NodeRecord) (m : NodeMeta)
    (hr : s.references.lookup id = some r) (hm : s.metaData.lookup id = some m)
    (hpr : s.references.lookupOpt r.parentId = none)
    (ha : assemble fuel s r none = Outcome.ok s1) :
    Mono s s1 ∧ StepNoopGuard s1 id := by
  cases hw : chainWalk s.references fuel (some r) [] with
  | none => rw [assemble, hw] at ha; cases ha
  | some cs =>
    have htree : s1 = { s with tree := cs, rootTreeIsSorted := true } := by
      cases hp : r.parentId with
      | none =>
        have ha' := ha
        simp [assemble, hw, placeChildren, hp] at ha'
        exact ha'.symm
      | some p =>
        have hlp : s.references.lookup p = none := by rw [hp] at hpr; exact hpr
        by_cases hpe : p = ""
        · subst hpe
          have ha' := ha
          simp [assemble, hw, placeChildren, hp] at ha'
          exact ha'.symm
        · have ha' := ha
          simp [assemble, hw, placeChildren, hp, hpe, hlp] at ha'
    subst htree
    refine ⟨mono_of_tree s cs, ⟨r, m, hr, hm, ?_⟩⟩
    intro _
    right
    exact ⟨hpr, rfl⟩

theorem step_ok_props (fuel : Nat) (s : BuildState) (id : String) (s1 : BuildState)
    (h : phase3Step fuel s id = Outcome.ok s1) : Mono s s1 ∧ StepNoopGuard s1 id := by
  cases hr : s.references.lookup id with
  | none => simp [phase3Step, hr] at h
  | some r =>
    cases hm : s.metaData.lookup id with
    | none => simp [phase3Step, hr, hm] at h
    | some m =>
      cases hflag : m.isLastNode with
      | false =>
        have hs : s1 = s := by
          have h' := h
          simp [phase3Step, hr, hm, hflag] at h'
          exact h'.symm
        subst hs
        exact ⟨mono_refl _, ⟨r, m, hr, hm, by intro hf; rw [hf] at hflag; cases hflag⟩⟩
      | true =>
        cases hpr : s.references.lookupOpt r.parentId with
        | some pr =>
          cases hpm : s.metaData.lookupOpt r.parentId with
          | none => simp [phase3Step, hr, hm, hflag, hpr, hpm] at h
          | some pm =>
            cases hsort : pm.childrenAreSorted with
            | true =>
              have hs : s1 = s := by
                have h' := h
                simp [phase3Step, hr, hm, hflag, hpr, hpm, hsort] at h'
                exact h'.symm
              subst hs
              exact ⟨mono_refl _, ⟨r, m, hr, hm, fun _ => Or.inl ⟨pr, pm, hpr, hpm, hsort⟩⟩⟩
            | false =>
              have ha : assemble fuel s r (some pm) = Outcome.ok s1 := by
                have h' := h
                simp [phase3Step, hr, hm, hflag, hpr, hpm, hsort] at h'
                exact h'
              exact step_assemble_parent_props fuel s id s1 r m pr pm hr hm hpr hpm ha
        | none =>
          cases hsroot : s.rootTreeIsSorted with
          | true =>
            have hs : s1 = s := by
              have h' := h
              simp [phase3Step, hr, hm, hflag, hpr, hsroot] at h'
              exact h'.symm
            subst hs
            exact ⟨mono_refl _, ⟨r, m, hr, hm, fun _ => Or.inr ⟨hpr, hsroot⟩⟩⟩
          | false =>
            have ha : assemble fuel s r none = Outcome.ok s1 := by
              have h' := h
              simp [phase3Step, hr, hm, hflag, hpr, hsroot] at h'
              exact h'
            exact step_assemble_root_props fuel s id s1 r m hr hm hpr ha


theorem runKeys_ok_mono (fuel : Nat) (ks : List String) (s s' : BuildState)
    (h : runKeys fuel ks s = Outcome.ok s') : Mono s s' := by
  induction ks generalizing s with
  | nil =>
    have : s = s' := Outcome.ok.inj h
    subst this
    exact mono_refl s
  | cons k ks ih =>
    rw [runKeys_cons_eq] at h
    cases hstep : phase3Step fuel s k with
    | ok s1 =>
      rw [hstep] at h
      exact mono_trans (step_ok_props fuel s k s1 hstep).1 (ih s1 h)
    | crash => rw [hstep] at h; cases h
    | hung => rw [hstep] at h; cases h

theorem runKeys_ok_guards (fuel : Nat) (ks : List String) (s s' : BuildState)
    (h : runKeys fuel ks s = Outcome.ok s') : ∀ k ∈ ks, StepNoopGuard s' k := by
  induction ks generalizing s with
  | nil => intro k hk; cases hk
  | cons k0 ks ih =>
    intro k hk
    rw [runKeys_cons_eq] at h
    cases hstep : phase3Step fuel s k0 with
    | ok s1 =>
      rw [hstep] at h
      rcases List.mem_cons.mp hk with hk0 | hks
      · subst hk0
        exact guard_mono (runKeys_ok_mono fuel ks s1 s' h) (step_ok_props fuel s k s1 hstep).2
      · exact ih s1 h k hks
    | crash => rw [hstep] at h; cases h
    | hung => rw [hstep] at h; cases h

theorem runKeys_of_guards (fuel : Nat) (ks : List String) (s : BuildState)
    (h : ∀ k ∈ ks, StepNoopGuard s k) : runKeys fuel ks s = Outcome.ok s := by
  induction ks with
  | nil => rfl
  | cons k ks ih =>
    rw [runKeys_cons_eq, step_of_guard fuel s k (h k (List.mem_cons_self k ks))]
    exact ih (fun k' hk' => h k' (List.mem_cons_of_mem k hk'))

/-- C5: running the tree-assembly phase a second time over the same index
and metadata leaves the state — every parent's `children` and the root list
included — entirely unchanged: after a completed first pass every still-last
node is guarded by its parent's `childrenAreSorted` flag (or by
`rootTreeIsSorted`), so the second pass skips every sibling group. -/
theorem c5_assembly_idempotent (fuel : Nat) (ks : List String) (s s' : BuildState)
    (h : runKeys fuel ks s = Outcome.ok s') :
    runKeys fuel ks s' = Outcome.ok s' :=
  runKeys_of_guards fuel ks s' (runKeys_ok_guards fuel ks s s' h)

/-- C5 witness: a one-node state; the first pass installs the root list and
sets `rootTreeIsSorted`, the second pass returns the state untouched. -/
theorem c5_witness :
    runKeys 1 ["A"]
      { references := [("A", ⟨"A", "a", none, none, []⟩)],
        metaData := [("A", ⟨true, false⟩)], tree := [], rootTreeIsSorted := false } =
      Outcome.ok
        { references := [("A", ⟨"A", "a", none, none, []⟩)],
          metaData := [("A", ⟨true, false⟩)], tree := ["A"], rootTreeIsSorted := true } ∧
    runKeys 1 ["A"]
      { references := [("A", ⟨"A", "a", none, none, []⟩)],
        metaData := [("A", ⟨true, false⟩)], tree := ["A"], rootTreeIsSorted := true } =
      Outcome.ok
        { references := [("A", ⟨"A", "a", none, none, []⟩)],
          metaData := [("A", ⟨true, false⟩)], tree := ["A"], rootTreeIsSorted := true } :=
  ⟨rfl,
   c5_assembly_idempotent 1 ["A"]
     { references := [("A", ⟨"A", "a", none, none, []⟩)],
       metaData := [("A", ⟨true, false⟩)], tree := [], rootTreeIsSorted := false }
     { references := [("A", ⟨"A", "a", none, none, []⟩)],
       metaData := [("A", ⟨true, false⟩)], tree := ["A"], rootTreeIsSorted := true } rfl⟩

/-! ### Claim C10: a self-cycle node never enters the output -/

theorem phase1_keysConsistent (nodes : List NodeInput) :
    KeysConsistent (phase1Refs nodes) := by
  intro k r h
  obtain ⟨n, _, hid, hrec⟩ := phase1Refs_eq_some nodes k r h
  rw [hrec]
  exact hid

theorem walk_self_loop_none (refs : Store NodeRecord) (sid : String) (r : NodeRecord)
    (hl : refs.lookup sid = some r) (hprev : r.previousSiblingId = some sid) :
    ∀ (fuel : Nat) (acc : List String), chainWalk refs fuel (some r) acc = none := by
  intro fuel
  induction fuel with
  | zero => intro acc; rfl
  | succ f ih =>
    intro acc
    have e : chainWalk refs (f + 1) (some r) acc =
        chainWalk refs f (refs.lookupOpt r.previousSiblingId) (r.nodeId :: acc) := rfl
    rw [e, hprev]
    show chainWalk refs f (refs.lookup sid) (r.nodeId :: acc) = none
    rw [hl]
    exact ih _

theorem walk_avoids_self_loop (refs : Store NodeRecord) (sid : String) (r : NodeRecord)
    (hkc : KeysConsistent refs) (hl : refs.lookup sid = some r)
    (hprev : r.previousSiblingId = some sid) :
    ∀ (fuel : Nat) (cur : Option NodeRecord) (acc L : List String),
      (∀ nr, cur = some nr → refs.lookup nr.nodeId = some nr) →
      chainWalk refs fuel cur acc = some L → sid ∉ acc → sid ∉ L := by
  intro fuel
  induction fuel with
  | zero =>
    intro cur acc L hin hw hacc
    cases cur with
    | none =>
      rw [chainWalk_none] at hw
      rw [← Option.some.inj hw]
      exact hacc
    | some nr =>
      rw [show chainWalk refs 0 (some nr) acc = none from rfl] at hw
      cases hw
  | succ f ih =>
    intro cur acc L hin hw hacc
    cases cur with
    | none =>
      rw [chainWalk_none] at hw
      rw [← Option.some.inj hw]
      exact hacc
    | some nr =>
      by_cases hid : nr.nodeId = sid
      · have h1 := hin nr rfl
        rw [hid] at h1
        have hnr : nr = r := by rw [h1] at hl; exact Option.some.inj hl
        subst hnr
        rw [walk_self_loop_none refs sid nr h1 hprev (f + 1) acc] at hw
        cases hw
      · have e : chainWalk refs (f + 1) (some nr) acc =
            chainWalk refs f (refs.lookupOpt nr.previousSiblingId) (nr.nodeId :: acc) := rfl
        rw [e] at hw
        refine ih _ _ _ ?_ hw ?_
        · intro nr' h'
          cases hpv : nr.previousSiblingId with
          | none => rw [hpv] at h'; cases h'
          | some q =>
            rw [hpv] at h'
            have hq : refs.lookup q = some nr' := h'
            rw [hkc q nr' hq]
            exact hq
        · intro hmem
          rcases List.mem_cons.mp hmem with h1 | h1
          · exact hid h1.symm
          · exact hacc h1

theorem step_ok_shape (fuel : Nat) (s : BuildState) (id : String) (s1 : BuildState)
    (h : phase3Step fuel s id = Outcome.ok s1) :
    s1 = s ∨
    ∃ r cs, s.references.lookup id = some r ∧
      chainWalk s.references fuel (some r) [] = some cs ∧
      ((s1.references = s.references ∧ s1.tree = cs) ∨
       (∃ p pr, r.parentId = some p ∧ s.references.lookup p = some pr ∧
         s1.references = s.references.insert p { pr with children := cs } ∧
         s1.tree = s.tree)) := by
  cases hr : s.references.lookup id with
  | none => simp [phase3Step, hr] at h
  | some r =>
    cases hm : s.metaData.lookup id with
    | none => simp [phase3Step, hr, hm] at h
    | some m =>
      cases hflag : m.isLastNode with
      | false =>
        left
        have h' := h
        simp [phase3Step, hr, hm, hflag] at h'
        exact h'.symm
      | true =>
        have hassem : ∀ pm?, assemble fuel s r pm? = Outcome.ok s1 →
            ∃ r' cs, s.references.lookup id = some r' ∧
              chainWalk s.references fuel (some r') [] = some cs ∧
              ((s1.references = s.references ∧ s1.tree = cs) ∨
               (∃ p pr, r'.parentId = some p ∧ s.references.lookup p = some pr ∧
                 s1.references = s.references.insert p { pr with children := cs } ∧
                 s1.tree = s.tree)) := by
          intro pm? ha
          cases hw : chainWalk s.references fuel (some r) [] with
          | none => rw [assemble, hw] at ha; cases ha
          | some cs =>
            refine ⟨r, cs, hr, hw, ?_⟩
            cases hp : r.parentId with
            | none =>
              left
              cases pm? with
              | some pm => simp [assemble, hw, placeChildren, hp] at ha
              | none =>
                have ha' := ha
                simp [assemble, hw, placeChildren, hp] at ha'
                rw [← ha']
                exact ⟨rfl, rfl⟩
            | some p =>
              by_cases hpe : p = ""
              · subst hpe
                left
                cases pm? with
                | some pm =>
                  have ha' := ha
                  simp [assemble, hw, placeChildren, hp] at ha'
                  rw [← ha']
                  exact ⟨rfl, rfl⟩
                | none =>
                  have ha' := ha
                  simp [assemble, hw, placeChildren, hp] at ha'
                  rw [← ha']
                  exact ⟨rfl, rfl⟩
              · cases hlp : s.references.lookup p with
                | none => simp [assemble, hw, placeChildren, hp, hpe, hlp] at ha
                | some pr =>
                  right
                  refine ⟨p, pr, rfl, hlp, ?_⟩
                  cases pm? with
                  | some pm =>
                    have ha' := ha
                    simp [assemble, hw, placeChildren, hp, hpe, hlp] at ha'
                    rw [← ha']
                    exact ⟨rfl, rfl⟩
                  | none =>
                    have ha' := ha
                    simp [assemble, hw, placeChildren, hp, hpe, hlp] at ha'
                    rw [← ha']
                    exact ⟨rfl, rfl⟩
        cases hpr : s.references.lookupOpt r.parentId with
        | some pr =>
          cases hpm : s.metaData.lookupOpt r.parentId with
          | none => simp [phase3Step, hr, hm, hflag, hpr, hpm] at h
          | some pm =>
            cases hsort : pm.childrenAreSorted with
            | true =>
              left
              have h' := h
              simp [phase3Step, hr, hm, hflag, hpr, hpm, hsort] at h'
              exact h'.symm
            | false =>
              right
              have hok : assemble fuel s r (some pm) = Outcome.ok s1 := by
                have h' := h
                simp [phase3Step, hr, hm, hflag, hpr, hpm, hsort] at h'
                exact h'
              obtain ⟨r', cs, h1, h2, h3⟩ := hassem (some pm) hok
              rw [hr] at h1
              exact ⟨r', cs, h1, h2, h3⟩
        | none =>
          cases hsroot : s.rootTreeIsSorted with
          | true =>
            left
            have h' := h
            simp [phase3Step, hr, hm, hflag, hpr, hsroot] at h'
            exact h'.symm
          | false =>
            right
            have hok : assemble fuel s r none = Outcome.ok s1 := by
              have h' := h
              simp [phase3Step, hr, hm, hflag, hpr, hsroot] at h'
              exact h'
            obtain ⟨r', cs, h1, h2, h3⟩ := hassem none hok
            rw [hr] at h1
            exact ⟨r', cs, h1, h2, h3⟩

theorem step_selfLoopInv (fuel : Nat) (s : BuildState) (id : String) (s1 : BuildState)
    (sid : String) (hinv : SelfLoopInv sid s) (h : phase3Step fuel s id = Outcome.ok s1) :
    SelfLoopInv sid s1 := by
  obtain ⟨hkc, ⟨rs, hrs, hrsprev⟩, htree, hchild⟩ := hinv
  rcases step_ok_shape fuel s id s1 h with hs | ⟨r, cs, hr, hw, hshape⟩
  · rw [hs]
    exact ⟨hkc, ⟨rs, hrs, hrsprev⟩, htree, hchild⟩
  · have hcs : sid ∉ cs := by
      refine walk_avoids_self_loop s.references sid rs hkc hrs hrsprev fuel (some r) [] cs
        ?_ hw ?_
      · intro nr hnr
        have : nr = r := Option.some.inj hnr.symm
        subst this
        rw [hkc id nr hr]
        exact hr
      · simp
    rcases hshape with ⟨hrefs, htr⟩ | ⟨p, pr, hp, hlp, hrefs, htr⟩
    · refine ⟨?_, ⟨rs, ?_, hrsprev⟩, ?_, ?_⟩
      · intro k rec hrec; rw [hrefs] at hrec; exact hkc k rec hrec
      · rw [hrefs]; exact hrs
      · rw [htr]; exact hcs
      · intro k rec hrec; rw [hrefs] at hrec; exact hchild k rec hrec
    · have hprid : pr.nodeId = p := hkc p pr hlp
      refine ⟨?_, ?_, ?_, ?_⟩
      · intro k rec hrec
        rw [hrefs, Store.lookup_insert] at hrec
        by_cases hk : p = k
        · rw [if_pos hk] at hrec
          have : rec = { pr with children := cs } := (Option.some.inj hrec).symm
          rw [this]
          show pr.nodeId = k
          rw [hprid, hk]
        · rw [if_neg hk] at hrec
          exact hkc k rec hrec
      · by_cases hk : p = sid
        · subst hk
          have : pr = rs := by rw [hlp] at hrs; exact Option.some.inj hrs
          refine ⟨{ pr with children := cs }, ?_, ?_⟩
          · rw [hrefs]; exact Store.lookup_insert_self _ _ _
          · show pr.previousSiblingId = some p
            rw [this, hrsprev]
        · refine ⟨rs, ?_, hrsprev⟩
          rw [hrefs, Store.lookup_insert_ne _ _ _ _ hk]
          exact hrs
      · rw [htr]; exact htree
      · intro k rec hrec
        rw [hrefs, Store.lookup_insert] at hrec
        by_cases hk : p = k
        · rw [if_pos hk] at hrec
          have : rec = { pr with children := cs } := (Option.some.inj hrec).symm
          rw [this]
          exact hcs
        · rw [if_neg hk] at hrec
          exact hchild k rec hrec

theorem runKeys_selfLoopInv (fuel : Nat) (ks : List String) (s s' : BuildState)
    (sid : String) (hinv : SelfLoopInv sid s) (h : runKeys fuel ks s = Outcome.ok s') :
    SelfLoopInv sid s' := by
  induction ks generalizing s with
  | nil =>
    have : s = s' := Outcome.ok.inj h
    rw [← this]
    exact hinv
  | cons k ks ih =>
    rw [runKeys_cons_eq] at h
    cases hstep : phase3Step fuel s k with
    | ok s1 =>
      rw [hstep] at h
      exact ih s1 (step_selfLoopInv fuel s k s1 sid hinv hstep) h
    | crash => rw [hstep] at h; cases h
    | hung => rw [hstep] at h; cases h

/-- C10 amended: whenever the index maps `sid` to a record that names itself
as `previousSiblingId`, the terminal-node-detection phase marks that record
non-terminal (so the assembly phase never initiates a walk at it), and any
run of the transformation that completes successfully leaves `sid` out of
the root list and out of every node's `children` sequence.  (The original
claim's unconditional termination is dropped: when another node's chain
reaches the self-cycle, the walk diverges — see the counterexample.) -/
theorem c10_amended_self_cycle (nodes : List NodeInput) (sid : String) (fuel : Nat)
    (r : NodeRecord) (hl : (phase1Refs nodes).lookup sid = some r)
    (hprev : r.previousSiblingId = some sid) :
    (∃ m, (phase2Meta nodes).lookup sid = some m ∧ m.isLastNode = false) ∧
    (∀ s, buildTreeModel nodes fuel = Outcome.ok s →
      sid ∉ s.tree ∧ ∀ id rec, s.references.lookup id = some rec → sid ∉ rec.children) := by
  have hex : ∃ n ∈ nodes, n.nodeId = sid ∧ r = toRecord n := phase1Refs_eq_some nodes sid r hl
  obtain ⟨n, hn, hnid, hnrec⟩ := hex
  have hnprev : n.previousSiblingId = some sid := by
    have : r.previousSiblingId = n.previousSiblingId := by rw [hnrec]; rfl
    rw [← this, hprev]
  constructor
  · rw [phase2Meta_lookup nodes sid ⟨n, hn, hnid⟩]
    refine ⟨_, rfl, ?_⟩
    have hany : (nodes.any fun n' => n'.previousSiblingId == some sid) = true := by
      rw [List.any_eq_true]
      exact ⟨n, hn, by simp [hnprev]⟩
    rw [hany]
    rfl
  · intro s hs
    have hinv0 : SelfLoopInv sid
        { references := phase1Refs nodes, metaData := phase2Meta nodes,
          tree := [], rootTreeIsSorted := false } := by
      refine ⟨phase1_keysConsistent nodes, ⟨r, hl, hprev⟩, by simp, ?_⟩
      intro id rec hrec
      obtain ⟨n', _, _, hrec'⟩ := phase1Refs_eq_some nodes id rec hrec
      rw [hrec']
      show sid ∉ ([] : List String)
      simp
    have hfin := runKeys_selfLoopInv fuel (Store.keys (phase1Refs nodes))
      { references := phase1Refs nodes, metaData := phase2Meta nodes,
        tree := [], rootTreeIsSorted := false } s sid hinv0 hs
    exact ⟨hfin.2.2.1, hfin.2.2.2⟩

/-- C10 amended, witness at the lone self-cycle node: the detection phase
clears its flag and the completed run leaves it absent everywhere. -/
theorem c10_amended_witness :
    ((phase1Refs selfOnlyNodes).lookup "S" =
      some (⟨"S", "s", none, some "S", []⟩ : NodeRecord)) ∧
    (∃ m, (phase2Meta selfOnlyNodes).lookup "S" = some m ∧ m.isLastNode = false) ∧
    (∀ s, buildTreeModel selfOnlyNodes 1 = Outcome.ok s →
      "S" ∉ s.tree ∧ ∀ id rec, s.references.lookup id = some rec → "S" ∉ rec.children) :=
  ⟨rfl, c10_amended_self_cycle selfOnlyNodes "S" 1 ⟨"S", "s", none, some "S", []⟩ rfl rfl⟩

/-! ### Backward-chain combinatorics (claims C1, C6, C7) -/

theorem chainFromB_cons (a b : NodeInput) (t : List NodeInput) :
    chainFromB a (b :: t) = ((b.previousSiblingId == some a.nodeId) && chainFromB b t) := rfl

theorem chainFromB_snoc (a d : NodeInput) (l : List NodeInput)
    (h : chainFromB a (l ++ [d]) = true) :
    chainFromB a l = true ∧
      ∃ e, (a :: l).getLast? = some e ∧ d.previousSiblingId = some e.nodeId := by
  induction l generalizing a with
  | nil =>
    have hd : d.previousSiblingId = some a.nodeId := by
      simpa [chainFromB] using h
    exact ⟨rfl, a, rfl, hd⟩
  | cons b t ih =>
    rw [List.cons_append, chainFromB_cons, Bool.and_eq_true] at h
    obtain ⟨hc, e, he, hd⟩ := ih b h.2
    refine ⟨?_, e, ?_, hd⟩
    · rw [chainFromB_cons, Bool.and_eq_true]
      exact ⟨h.1, hc⟩
    · rw [List.getLast?_cons_cons]
      exact he

theorem isChainB_snoc (l : List NodeInput) (d : NodeInput)
    (h : isChainB (l ++ [d]) = true) :
    isChainB l = true ∧
      ((l = [] ∧ d.previousSiblingId = none) ∨
       (∃ e, l.getLast? = some e ∧ d.previousSiblingId = some e.nodeId)) := by
  cases l with
  | nil =>
    refine ⟨rfl, Or.inl ⟨rfl, ?_⟩⟩
    simpa [isChainB, chainFromB] using h
  | cons c t =>
    rw [List.cons_append] at h
    have h1 : (c.previousSiblingId == none) = true ∧ chainFromB c (t ++ [d]) = true := by
      simpa [isChainB, Bool.and_eq_true] using h
    obtain ⟨hc0, e, he, hd⟩ := chainFromB_snoc c d t h1.2
    refine ⟨?_, Or.inr ⟨e, he, hd⟩⟩
    simp [isChainB, Bool.and_eq_true, h1.1, hc0]

theorem chainFromB_mem_pred (a : NodeInput) (t : List NodeInput) (h : chainFromB a t = true)
    (m : NodeInput) (hm : m ∈ t) :
    ∃ x l1 l2, a :: t = l1 ++ x :: m :: l2 ∧ m.previousSiblingId = some x.nodeId := by
  induction t generalizing a with
  | nil => cases hm
  | cons b t' ih =>
    have h1 : (b.previousSiblingId == some a.nodeId) = true ∧ chainFromB b t' = true := by
      simpa [chainFromB, Bool.and_eq_true] using h
    rcases List.mem_cons.mp hm with hmb | hmt
    · subst hmb
      exact ⟨a, [], t', by simp, by simpa using h1.1⟩
    · obtain ⟨x, l1, l2, hdec, hp⟩ := ih b h1.2 hmt
      refine ⟨x, a :: l1, l2, ?_, hp⟩
      rw [List.cons_append, ← hdec]

theorem isChainB_pred (cs : List NodeInput) (h : isChainB cs = true) (m : NodeInput)
    (q : String) (hm : m ∈ cs) (hq : m.previousSiblingId = some q) :
    ∃ x l1 l2, cs = l1 ++ x :: m :: l2 ∧ q = x.nodeId := by
  cases cs with
  | nil => cases hm
  | cons c t =>
    have h1 : (c.previousSiblingId == none) = true ∧ chainFromB c t = true := by
      simpa [isChainB, Bool.and_eq_true] using h
    rcases List.mem_cons.mp hm with hmc | hmt
    · subst hmc
      rw [hq] at h1
      simp at h1
    · obtain ⟨x, l1, l2, hdec, hp⟩ := chainFromB_mem_pred c t h1.2 m hmt
      rw [hq] at hp
      exact ⟨x, l1, l2, hdec, Option.some.inj hp⟩

theorem chainFromB_mem_succ (a : NodeInput) (t : List NodeInput) (h : chainFromB a t = true)
    (x z : NodeInput) (hx : x ∈ a :: t) (hz : (a :: t).getLast? = some z) (hxz : x ≠ z) :
    ∃ y, y ∈ a :: t ∧ y.previousSiblingId = some x.nodeId := by
  induction t generalizing a with
  | nil =>
    have hza : z = a := by simpa using hz.symm
    have hxa : x = a := by simpa using hx
    exact absurd (hxa.trans hza.symm) hxz
  | cons b t' ih =>
    have h1 : (b.previousSiblingId == some a.nodeId) = true ∧ chainFromB b t' = true := by
      simpa [chainFromB, Bool.and_eq_true] using h
    rcases List.mem_cons.mp hx with hxa | hxt
    · subst hxa
      exact ⟨b, by simp, by simpa using h1.1⟩
    · rw [List.getLast?_cons_cons] at hz
      obtain ⟨y, hy, hp⟩ := ih b h1.2 hxt hz
      exact ⟨y, List.mem_cons_of_mem a hy, hp⟩

theorem nonterminal_referenced (cs : List NodeInput) (h : isChainB cs = true)
    (x z : NodeInput) (hx : x ∈ cs) (hz : cs.getLast? = some z) (hxz : x ≠ z) :
    ∃ y, y ∈ cs ∧ y.previousSiblingId = some x.nodeId := by
  cases cs with
  | nil => cases hx
  | cons c t =>
    have h1 : (c.previousSiblingId == none) = true ∧ chainFromB c t = true := by
      simpa [isChainB, Bool.and_eq_true] using h
    exact chainFromB_mem_succ c t h1.2 x z hx hz hxz

theorem mem_of_getLast?_eq_some {α : Type} {l : List α} {a : α} (h : l.getLast? = some a) :
    a ∈ l := by
  obtain ⟨hne, hee⟩ := List.mem_getLast?_eq_getLast h
  rw [hee]
  exact List.getLast_mem hne

/-! ### Correctness of the backward walk along a well-formed chain -/

theorem walk_of_chain (refs : Store NodeRecord) (cs : List NodeInput) :
    isChainB cs = true →
    (∀ c ∈ cs, ∃ rc, refs.lookup c.nodeId = some rc ∧
      rc.nodeId = c.nodeId ∧ rc.previousSiblingId = c.previousSiblingId) →
    ∀ t : NodeInput, cs.getLast? = some t →
    ∀ rt : NodeRecord, refs.lookup t.nodeId = some rt →
    ∀ (acc : List String) (fuel : Nat), cs.length ≤ fuel →
    chainWalk refs fuel (some rt) acc = some (cs.map (fun n => n.nodeId) ++ acc) := by
  induction cs using List.reverseRecOn with
  | nil =>
    intro _ _ t ht
    simp at ht
  | append_singleton l d ih =>
    intro hch hag t ht rt hrt acc fuel hfuel
    rw [List.getLast?_concat] at ht
    have htd : t = d := (Option.some.inj ht).symm
    subst htd
    obtain ⟨rc, hrc, hrcid, hrcprev⟩ := hag t (by simp)
    have hrteq : rt = rc := by rw [hrc] at hrt; exact (Option.some.inj hrt).symm
    obtain ⟨hchl, hdisj⟩ := isChainB_snoc l t hch
    cases fuel with
    | zero =>
      exfalso
      have : l.length + 1 ≤ 0 := by simp at hfuel
      omega
    | succ f =>
      have e : chainWalk refs (f + 1) (some rt) acc =
          chainWalk refs f (refs.lookupOpt rt.previousSiblingId) (rt.nodeId :: acc) := rfl
      rw [e]
      have hprev : rt.previousSiblingId = t.previousSiblingId := by rw [hrteq]; exact hrcprev
      have hid : rt.nodeId = t.nodeId := by rw [hrteq]; exact hrcid
      rw [hprev, hid]
      rcases hdisj with ⟨hl, hdnone⟩ | ⟨e', he', hdsome⟩
      · subst hl
        rw [hdnone]
        show chainWalk refs f none (t.nodeId :: acc) = _
        rw [chainWalk_none]
        simp
      · rw [hdsome]
        show chainWalk refs f (refs.lookup e'.nodeId) (t.nodeId :: acc) = _
        have hemem : e' ∈ l := mem_of_getLast?_eq_some he'
        obtain ⟨re, hre, _, _⟩ := hag e' (by simp [hemem])
        have hflen : l.length ≤ f := by
          simp at hfuel
          omega
        have hrec := ih hchl (fun c hc => hag c (by simp [hc])) e' he' re hre
          (t.nodeId :: acc) f hflen
        rw [hre, hrec]
        simp

/-! ### Facts about well-formed inputs -/

theorem wf_groupOK (nodes : List NodeInput) (chains : Option String → List NodeInput)
    (hwf : WellFormed nodes chains) (n : NodeInput) (hn : n ∈ nodes) :
    GroupOK nodes chains n.parentId := by
  cases hp : n.parentId with
  | none => exact hwf.2.2.2.1
  | some P =>
    apply hwf.2.2.2.2
    have hres := hwf.2.2.1 n hn
    rw [parentResolvesB, hp] at hres
    simpa using hres

theorem chain_mem (nodes : List NodeInput) (chains : Option String → List NodeInput)
    (p : Option String) (hg : GroupOK nodes chains p) (c : NodeInput) (hc : c ∈ chains p) :
    c ∈ nodes ∧ c.parentId = p := by
  have hmem := hg.1.mem_iff.mp hc
  rw [siblingGroup, List.mem_filter] at hmem
  exact ⟨hmem.1, by simpa using hmem.2⟩

theorem mem_chain_self (nodes : List NodeInput) (chains : Option String → List NodeInput)
    (hwf : WellFormed nodes chains) (n : NodeInput) (hn : n ∈ nodes) :
    n ∈ chains n.parentId := by
  have hg := wf_groupOK nodes chains hwf n hn
  apply hg.1.mem_iff.mpr
  rw [siblingGroup, List.mem_filter]
  exact ⟨hn, by simp⟩

theorem node_id_inj (nodes : List NodeInput) (chains : Option String → List NodeInput)
    (hwf : WellFormed nodes chains) {a b : NodeInput} (ha : a ∈ nodes) (hb : b ∈ nodes)
    (hab : a.nodeId = b.nodeId) : a = b :=
  List.inj_on_of_nodup_map hwf.1 ha hb hab

theorem chain_nodup (nodes : List NodeInput) (chains : Option String → List NodeInput)
    (hwf : WellFormed nodes chains) (p : Option String) (hg : GroupOK nodes chains p) :
    (chains p).Nodup :=
  hg.1.nodup_iff.mpr
    (List.Nodup.sublist (List.filter_sublist nodes) (List.Nodup.of_map _ hwf.1))

theorem terminal_not_referenced (nodes : List NodeInput)
    (chains : Option String → List NodeInput) (hwf : WellFormed nodes chains)
    (n : NodeInput) (hn : n ∈ nodes) (hlast : (chains n.parentId).getLast? = some n) :
    ∀ m ∈ nodes, m.previousSiblingId ≠ some n.nodeId := by
  intro m hm hprev
  have hgm := wf_groupOK nodes chains hwf m hm
  have hmchain : m ∈ chains m.parentId := mem_chain_self nodes chains hwf m hm
  obtain ⟨x, l1, l2, hdec, hq⟩ :=
    isChainB_pred (chains m.parentId) hgm.2 m n.nodeId hmchain hprev
  have hx : x ∈ chains m.parentId := by rw [hdec]; simp
  have hxn := chain_mem nodes chains m.parentId hgm x hx
  have hxeq : x = n := node_id_inj nodes chains hwf hxn.1 hn hq.symm
  subst hxeq
  rw [hxn.2] at hlast
  have hnd := chain_nodup nodes chains hwf m.parentId hgm
  rw [hdec] at hlast hnd
  rw [List.getLast?_append_cons, List.getLast?_cons_cons] at hlast
  have hmem : x ∈ m :: l2 := mem_of_getLast?_eq_some hlast
  have hnotmem : x ∉ m :: l2 := by
    have h1 : (x :: m :: l2).Nodup := (List.nodup_append.mp hnd).2.1
    exact (List.nodup_cons.mp h1).1
  exact hnotmem hmem

theorem wf_isLastNode_iff (nodes : List NodeInput)
    (chains : Option String → List NodeInput) (hwf : WellFormed nodes chains)
    (n : NodeInput) (hn : n ∈ nodes) :
    ∃ flag, (phase2Meta nodes).lookup n.nodeId =
      some { isLastNode := flag, childrenAreSorted := false } ∧
      (flag = true ↔ (chains n.parentId).getLast? = some n) := by
  have hlk := phase2Meta_lookup nodes n.nodeId ⟨n, hn, rfl⟩
  refine ⟨_, hlk, ?_⟩
  constructor
  · intro hflag
    have hnoref : ∀ m ∈ nodes, m.previousSiblingId ≠ some n.nodeId := by
      intro m hm hp
      have hany : (nodes.any fun n' => n'.previousSiblingId == some n.nodeId) = true :=
        List.any_eq_true.mpr ⟨m, hm, by simp [hp]⟩
      rw [hany] at hflag
      cases hflag
    have hg := wf_groupOK nodes chains hwf n hn
    have hself := mem_chain_self nodes chains hwf n hn
    cases hgl : (chains n.parentId).getLast? with
    | none =>
      rw [List.getLast?_eq_none_iff] at hgl
      rw [hgl] at hself
      cases hself
    | some z =>
      by_cases hnz : n = z
      · subst hnz; rfl
      · exfalso
        obtain ⟨y, hy, hyp⟩ :=
          nonterminal_referenced (chains n.parentId) hg.2 n z hself hgl hnz
        have hymem := (chain_mem nodes chains n.parentId hg y hy).1
        exact hnoref y hymem hyp
  · intro hlast
    have hnoref := terminal_not_referenced nodes chains hwf n hn hlast
    have hany : (nodes.any fun n' => n'.previousSiblingId == some n.nodeId) = false := by
      cases hval : (nodes.any fun n' => n'.previousSiblingId == some n.nodeId) with
      | false => rfl
      | true =>
        obtain ⟨m, hm, hb⟩ := List.any_eq_true.mp hval
        exact absurd (by simpa using hb) (hnoref m hm)
    rw [hany]
    rfl

/-! ### The phase-3 invariant for well-formed inputs -/

theorem phase3Inv_init (nodes : List NodeInput) (chains : Option String → List NodeInput)
    (hwf : WellFormed nodes chains) :
    Phase3Inv nodes chains
      { references := phase1Refs nodes, metaData := phase2Meta nodes,
        tree := [], rootTreeIsSorted := false }
      (Store.keys (phase1Refs nodes)) := by
  refine ⟨?_, ?_, ?_, ?_, ?_, rfl, ?_⟩
  · intro id
    exact (phase1Refs_isSome nodes id).symm
  · intro id r h
    obtain ⟨n, hn, hid, hrec⟩ := phase1Refs_eq_some nodes id r h
    exact ⟨n, hn, hid, by rw [hrec]; rfl, by rw [hrec]; rfl, by rw [hrec]; rfl⟩
  · intro id
    exact (phase2Meta_isSome nodes id).symm
  · intro id m h
    have hex : ∃ n ∈ nodes, n.nodeId = id := (phase2Meta_isSome nodes id).mp (by simp [h])
    rw [phase2Meta_lookup nodes id hex] at h
    have hm := Option.some.inj h
    rw [← hm]
    simp [List.any_eq_true]
  · intro P m h
    have hex : ∃ n ∈ nodes, n.nodeId = P := (phase2Meta_isSome nodes P).mp (by simp [h])
    rw [phase2Meta_lookup nodes P hex] at h
    have hm := Option.some.inj h
    have hsort : m.childrenAreSorted = false := by rw [← hm]
    have hrs : ((phase1Refs nodes).lookup P).isSome = true := (phase1Refs_isSome nodes P).mpr hex
    obtain ⟨r, hr⟩ := Option.isSome_iff_exists.mp hrs
    obtain ⟨n, hn, hid, hrec⟩ := phase1Refs_eq_some nodes P r hr
    refine ⟨r, hr, ?_⟩
    rw [hsort, hrec]
    rfl
  · intro p hp
    left
    obtain ⟨n, hn, hnp⟩ := hp
    have hg : GroupOK nodes chains p := by
      rw [← hnp]; exact wf_groupOK nodes chains hwf n hn
    have hself : n ∈ chains p := by
      rw [← hnp]; exact mem_chain_self nodes chains hwf n hn
    cases hgl : (chains p).getLast? with
    | none =>
      rw [List.getLast?_eq_none_iff] at hgl
      rw [hgl] at hself
      cases hself
    | some t =>
      refine ⟨t, rfl, ?_⟩
      have htmem : t ∈ chains p := mem_of_getLast?_eq_some hgl
      have htn := chain_mem nodes chains p hg t htmem
      rw [Store.mem_keys_iff]
      exact (phase1Refs_isSome nodes t.nodeId).mpr ⟨t, htn.1, rfl⟩

theorem terminal_eq_of_id (nodes : List NodeInput) (chains : Option String → List NodeInput)
    (hwf : WellFormed nodes chains) (n : NodeInput) (hn : n ∈ nodes) (id : String)
    (hnid : n.nodeId = id) (p : Option String) (hp : ∃ n0 ∈ nodes, n0.parentId = p)
    (t : NodeInput) (hgl : (chains p).getLast? = some t) (h1 : t.nodeId = id) :
    t = n ∧ p = n.parentId := by
  obtain ⟨n0, hn0, hn0p⟩ := hp
  have hg' : GroupOK nodes chains p := by
    rw [← hn0p]; exact wf_groupOK nodes chains hwf n0 hn0
  have htmc : t ∈ chains p := mem_of_getLast?_eq_some hgl
  have htn := chain_mem nodes chains p hg' t htmc
  have hteq : t = n := node_id_inj nodes chains hwf htn.1 hn (by rw [h1, hnid])
  refine ⟨hteq, ?_⟩
  rw [← htn.2, hteq]

theorem phase3Inv_step (nodes : List NodeInput) (chains : Option String → List NodeInput)
    (hwf : WellFormed nodes chains) (fuel : Nat) (hfuel : nodes.length ≤ fuel)
    (s : BuildState) (id : String) (rest : List String)
    (hid : ∃ n ∈ nodes, n.nodeId = id)
    (hinv : Phase3Inv nodes chains s (id :: rest)) :
    ∃ s1, phase3Step fuel s id = Outcome.ok s1 ∧ Phase3Inv nodes chains s1 rest := by
  obtain ⟨hA1, hA2, hA3, hA4, hA5, hA6, hA7⟩ := hinv
  obtain ⟨n0, hn0, hn0id⟩ := hid
  obtain ⟨r, hr⟩ := Option.isSome_iff_exists.mp ((hA1 id).mp ⟨n0, hn0, hn0id⟩)
  obtain ⟨m, hm⟩ := Option.isSome_iff_exists.mp ((hA3 id).mp ⟨n0, hn0, hn0id⟩)
  obtain ⟨n, hn, hnid, hrid, hrpar, hrprev⟩ := hA2 id r hr
  have hagree : ∀ (p : Option String), GroupOK nodes chains p → ∀ c ∈ chains p,
      ∃ rc, s.references.lookup c.nodeId = some rc ∧ rc.nodeId = c.nodeId ∧
        rc.previousSiblingId = c.previousSiblingId := by
    intro p hg c hc
    have hcm := chain_mem nodes chains p hg c hc
    obtain ⟨rc, hrc⟩ := Option.isSome_iff_exists.mp ((hA1 c.nodeId).mp ⟨c, hcm.1, rfl⟩)
    obtain ⟨nc, hnc, hncid, h1, h2, h3⟩ := hA2 c.nodeId rc hrc
    have hceq : nc = c := node_id_inj nodes chains hwf hnc hcm.1 hncid
    subst hceq
    exact ⟨rc, hrc, h1, h3⟩
  cases hflag : m.isLastNode with
  | false =>
    refine ⟨s, by simp [phase3Step, hr, hm, hflag], hA1, hA2, hA3, hA4, hA5, hA6, ?_⟩
    intro p hp
    rcases hA7 p hp with ⟨t, hgl, htmem⟩ | hasm
    · left
      refine ⟨t, hgl, ?_⟩
      rcases List.mem_cons.mp htmem with h1 | h1
      · exfalso
        obtain ⟨hteq, hpeq⟩ :=
          terminal_eq_of_id nodes chains hwf n hn id hnid p hp t hgl h1
        subst hteq
        rw [hpeq] at hgl
        have hnoref := terminal_not_referenced nodes chains hwf t hn hgl
        have hft : m.isLastNode = true := by
          refine (hA4 id m hm).mpr ?_
          rintro ⟨m', hm', hp'⟩
          refine hnoref m' hm' ?_
          rw [hp', hnid]
        rw [hft] at hflag
        cases hflag
      · exact h1
    · right
      exact hasm
  | true =>
    have hnolast : ¬∃ m' ∈ nodes, m'.previousSiblingId = some id := (hA4 id m hm).mp hflag
    have hgn : GroupOK nodes chains n.parentId := wf_groupOK nodes chains hwf n hn
    have hself : n ∈ chains n.parentId := mem_chain_self nodes chains hwf n hn
    have hlast : (chains n.parentId).getLast? = some n := by
      cases hgl : (chains n.parentId).getLast? with
      | none =>
        rw [List.getLast?_eq_none_iff] at hgl
        rw [hgl] at hself
        cases hself
      | some z =>
        by_cases hnz : n = z
        · subst hnz; rfl
        · exfalso
          obtain ⟨y, hy, hyp⟩ :=
            nonterminal_referenced (chains n.parentId) hgn.2 n z hself hgl hnz
          refine hnolast ⟨y, (chain_mem nodes chains n.parentId hgn y hy).1, ?_⟩
          rw [hyp, hnid]
    have hlen : (chains n.parentId).length ≤ fuel := by
      calc (chains n.parentId).length = (siblingGroup nodes n.parentId).length :=
            hgn.1.length_eq
        _ ≤ nodes.length := List.length_filter_le _ _
        _ ≤ fuel := hfuel
    have hcs : chainWalk s.references fuel (some r) [] =
        some (chainIds chains n.parentId) := by
      have hw := walk_of_chain s.references (chains n.parentId) hgn.2
        (hagree n.parentId hgn) n hlast r (by rw [hnid]; exact hr) [] fuel hlen
      rw [hw]
      simp [chainIds]
    cases hp : n.parentId with
    | some P =>
      have hPmem : P ∈ nodes.map (fun n => n.nodeId) := by
        have hres := hwf.2.2.1 n hn
        rw [parentResolvesB, hp] at hres
        simpa using hres
      obtain ⟨nP, hnP, hnPid⟩ : ∃ n0 ∈ nodes, n0.nodeId = P := by
        simpa using hPmem
      have hPne : P ≠ "" := by
        intro h0
        rw [← hnPid] at h0
        exact hwf.2.1 nP hnP h0
      obtain ⟨pr, hpr⟩ := Option.isSome_iff_exists.mp ((hA1 P).mp ⟨nP, hnP, hnPid⟩)
      obtain ⟨pmm, hpm⟩ := Option.isSome_iff_exists.mp ((hA3 P).mp ⟨nP, hnP, hnPid⟩)
      have hprOpt : s.references.lookupOpt r.parentId = some pr := by
        rw [hrpar, hp]; exact hpr
      have hpmOpt : s.metaData.lookupOpt r.parentId = some pmm := by
        rw [hrpar, hp]; exact hpm
      cases hsort : pmm.childrenAreSorted with
      | true =>
        refine ⟨s, by simp [phase3Step, hr, hm, hflag, hprOpt, hpmOpt, hsort],
          hA1, hA2, hA3, hA4, hA5, hA6, ?_⟩
        intro p' hp'
        rcases hA7 p' hp' with ⟨t, hgl, htmem⟩ | hasm
        · rcases List.mem_cons.mp htmem with h1 | h1
          · right
            obtain ⟨hteq, hpeq⟩ :=
              terminal_eq_of_id nodes chains hwf n hn id hnid p' hp' t hgl h1
            rw [hpeq, hp]
            exact ⟨pmm, hpm, hsort⟩
          · left; exact ⟨t, hgl, h1⟩
        · right; exact hasm
      | false =>
        have hcsP : chainWalk s.references fuel (some r) [] =
            some (chainIds chains (some P)) := by
          rw [hcs, hp]
        refine ⟨{ s with
            references := s.references.insert P
              { pr with children := chainIds chains (some P) },
            metaData := s.metaData.insert P
              { pmm with childrenAreSorted := true } }, ?_, ?_⟩
        · have e1 : phase3Step fuel s id = assemble fuel s r (some pmm) := by
            simp [phase3Step, hr, hm, hflag, hprOpt, hpmOpt, hsort]
          rw [e1]
          unfold assemble
          rw [hcsP]
          simp only [placeChildren, hrpar, hp, hPne, hpr]
          simp [hPne]
        · constructor
          · -- A1
            intro id'
            rw [show ({ s with
                references := s.references.insert P
                  { pr with children := chainIds chains (some P) },
                metaData := s.metaData.insert P
                  { pmm with childrenAreSorted := true } } : BuildState).references =
              s.references.insert P { pr with children := chainIds chains (some P) } from rfl]
            rw [Store.lookup_insert]
            by_cases hQ : P = id'
            · subst hQ
              rw [if_pos rfl]
              simp only [Option.isSome_some]
              exact ⟨fun _ => trivial, fun _ => ⟨nP, hnP, hnPid⟩⟩
            · rw [if_neg hQ]
              exact hA1 id'
          constructor
          · -- A2
            intro id' r' h'
            rw [show ({ s with
                references := s.references.insert P
                  { pr with children := chainIds chains (some P) },
                metaData := s.metaData.insert P
                  { pmm with childrenAreSorted := true } } : BuildState).references =
              s.references.insert P { pr with children := chainIds chains (some P) } from rfl,
              Store.lookup_insert] at h'
            by_cases hQ : P = id'
            · rw [if_pos hQ] at h'
              have hr' : r' = { pr with children := chainIds chains (some P) } :=
                (Option.some.inj h').symm
              subst hQ
              obtain ⟨np', hnp', e1, e2, e3, e4⟩ := hA2 P pr hpr
              exact ⟨np', hnp', e1, by rw [hr']; exact e2, by rw [hr']; exact e3,
                by rw [hr']; exact e4⟩
            · rw [if_neg hQ] at h'
              exact hA2 id' r' h'
          constructor
          · -- A3
            intro id'
            rw [show ({ s with
                references := s.references.insert P
                  { pr with children := chainIds chains (some P) },
                metaData := s.metaData.insert P
                  { pmm with childrenAreSorted := true } } : BuildState).metaData =
              s.metaData.insert P { pmm with childrenAreSorted := true } from rfl,
              Store.lookup_insert]
            by_cases hQ : P = id'
            · subst hQ
              rw [if_pos rfl]
              simp only [Option.isSome_some]
              exact ⟨fun _ => trivial, fun _ => ⟨nP, hnP, hnPid⟩⟩
            · rw [if_neg hQ]
              exact hA3 id'
          constructor
          · -- A4
            intro id' m' h'
            rw [show ({ s with
                references := s.references.insert P
                  { pr with children := chainIds chains (some P) },
                metaData := s.metaData.insert P
                  { pmm with childrenAreSorted := true } } : BuildState).metaData =
              s.metaData.insert P { pmm with childrenAreSorted := true } from rfl,
              Store.lookup_insert] at h'
            by_cases hQ : P = id'
            · rw [if_pos hQ] at h'
              have hm' : m' = { pmm with childrenAreSorted := true } :=
                (Option.some.inj h').symm
              subst hQ
              rw [hm']
              exact hA4 P pmm hpm
            · rw [if_neg hQ] at h'
              exact hA4 id' m' h'
          constructor
          · -- A5
            intro Q mq h'
            rw [show ({ s with
                references := s.references.insert P
                  { pr with children := chainIds chains (some P) },
                metaData := s.metaData.insert P
                  { pmm with childrenAreSorted := true } } : BuildState).metaData =
              s.metaData.insert P { pmm with childrenAreSorted := true } from rfl,
              Store.lookup_insert] at h'
            rw [show ({ s with
                references := s.references.insert P
                  { pr with children := chainIds chains (some P) },
                metaData := s.metaData.insert P
                  { pmm with childrenAreSorted := true } } : BuildState).references =
              s.references.insert P { pr with children := chainIds chains (some P) } from rfl]
            by_cases hQ : P = Q
            · rw [if_pos hQ] at h'
              have hmq : mq = { pmm with childrenAreSorted := true } :=
                (Option.some.inj h').symm
              subst hQ
              refine ⟨{ pr with children := chainIds chains (some P) },
                Store.lookup_insert_self _ _ _, ?_⟩
              rw [hmq]
              rfl
            · rw [if_neg hQ] at h'
              obtain ⟨r', hr', hch⟩ := hA5 Q mq h'
              refine ⟨r', ?_, hch⟩
              rw [Store.lookup_insert_ne _ _ _ _ hQ]
              exact hr'
          constructor
          · -- A6
            exact hA6
          · -- A7
            intro p' hp'
            by_cases hpP : p' = some P
            · right
              rw [hpP]
              exact ⟨{ pmm with childrenAreSorted := true },
                Store.lookup_insert_self _ _ _, rfl⟩
            · rcases hA7 p' hp' with ⟨t, hgl, htmem⟩ | hasm
              · rcases List.mem_cons.mp htmem with h1 | h1
                · exfalso
                  obtain ⟨hteq, hpeq⟩ :=
                    terminal_eq_of_id nodes chains hwf n hn id hnid p' hp' t hgl h1
                  rw [hpeq, hp] at hpP
                  exact hpP rfl
                · left; exact ⟨t, hgl, h1⟩
              · right
                cases p' with
                | none => exact hasm
                | some Q =>
                  obtain ⟨mq, hmq, hmqs⟩ := hasm
                  have hQ : ¬P = Q := fun h0 => hpP (by rw [h0])
                  refine ⟨mq, ?_, hmqs⟩
                  rw [show ({ s with
                      references := s.references.insert P
                        { pr with children := chainIds chains (some P) },
                      metaData := s.metaData.insert P
                        { pmm with childrenAreSorted := true } } : BuildState).metaData =
                    s.metaData.insert P { pmm with childrenAreSorted := true } from rfl,
                    Store.lookup_insert_ne _ _ _ _ hQ]
                  exact hmq
    | none =>
      have hprOpt : s.references.lookupOpt r.parentId = none := by
        rw [hrpar, hp]; rfl
      cases hroot : s.rootTreeIsSorted with
      | true =>
        refine ⟨s, by simp [phase3Step, hr, hm, hflag, hprOpt, hroot],
          hA1, hA2, hA3, hA4, hA5, hA6, ?_⟩
        intro p' hp'
        rcases hA7 p' hp' with ⟨t, hgl, htmem⟩ | hasm
        · rcases List.mem_cons.mp htmem with h1 | h1
          · right
            obtain ⟨hteq, hpeq⟩ :=
              terminal_eq_of_id nodes chains hwf n hn id hnid p' hp' t hgl h1
            rw [hpeq, hp]
            exact hroot
          · left; exact ⟨t, hgl, h1⟩
        · right; exact hasm
      | false =>
        refine ⟨{ s with tree := chainIds chains none, rootTreeIsSorted := true }, ?_, ?_⟩
        · have e1 : phase3Step fuel s id = assemble fuel s r none := by
            simp [phase3Step, hr, hm, hflag, hprOpt, hroot]
          rw [e1]
          unfold assemble
          rw [hcs, hp]
          simp [placeChildren, hrpar, hp]
        · refine ⟨hA1, hA2, hA3, hA4, hA5, rfl, ?_⟩
          intro p' hp'
          by_cases hpn : p' = none
          · right
            rw [hpn]
            rfl
          · rcases hA7 p' hp' with ⟨t, hgl, htmem⟩ | hasm
            · rcases List.mem_cons.mp htmem with h1 | h1
              · exfalso
                obtain ⟨hteq, hpeq⟩ :=
                  terminal_eq_of_id nodes chains hwf n hn id hnid p' hp' t hgl h1
                rw [hpeq, hp] at hpn
                exact hpn rfl
              · left; exact ⟨t, hgl, h1⟩
            · right
              cases p' with
              | none => rfl
              | some Q => exact hasm

theorem phase3Inv_run (nodes : List NodeInput) (chains : Option String → List NodeInput)
    (hwf : WellFormed nodes chains) (fuel : Nat) (hfuel : nodes.length ≤ fuel) :
    ∀ (ks : List String) (s : BuildState),
      (∀ k ∈ ks, ∃ n ∈ nodes, n.nodeId = k) →
      Phase3Inv nodes chains s ks →
      ∃ s', runKeys fuel ks s = Outcome.ok s' ∧ Phase3Inv nodes chains s' [] := by
  intro ks
  induction ks with
  | nil => exact fun s _ hinv => ⟨s, rfl, hinv⟩
  | cons k ks ih =>
    intro s hks hinv
    obtain ⟨s1, hstep, hinv1⟩ := phase3Inv_step nodes chains hwf fuel hfuel s k ks
      (hks k (List.mem_cons_self k ks)) hinv
    obtain ⟨s', hrun, hinv'⟩ := ih s1 (fun k' hk' => hks k' (List.mem_cons_of_mem k hk')) hinv1
    refine ⟨s', ?_, hinv'⟩
    rw [runKeys_cons_eq, hstep]
    exact hrun

theorem buildTree_wf_master (nodes : List NodeInput)
    (chains : Option String → List NodeInput) (hwf : WellFormed nodes chains)
    (fuel : Nat) (hfuel : nodes.length ≤ fuel) :
    ∃ s, buildTreeModel nodes fuel = Outcome.ok s ∧ Phase3Inv nodes chains s [] := by
  have hkeys : ∀ k ∈ Store.keys (phase1Refs nodes), ∃ n ∈ nodes, n.nodeId = k := by
    intro k hk
    rw [Store.mem_keys_iff] at hk
    exact (phase1Refs_isSome nodes k).mp hk
  obtain ⟨s, hrun, hinv⟩ := phase3Inv_run nodes chains hwf fuel hfuel
    (Store.keys (phase1Refs nodes))
    { references := phase1Refs nodes, metaData := phase2Meta nodes,
      tree := [], rootTreeIsSorted := false }
    hkeys (phase3Inv_init nodes chains hwf)
  exact ⟨s, hrun, hinv⟩

theorem wf_final_children (nodes : List NodeInput)
    (chains : Option String → List NodeInput) (hwf : WellFormed nodes chains)
    (s : BuildState) (hinv : Phase3Inv nodes chains s [])
    (P : String) (hP : ∃ n ∈ nodes, n.nodeId = P) :
    ∃ r, s.references.lookup P = some r ∧ r.children = chainIds chains (some P) := by
  obtain ⟨hA1, hA2, hA3, hA4, hA5, hA6, hA7⟩ := hinv
  obtain ⟨mq, hmq⟩ := Option.isSome_iff_exists.mp ((hA3 P).mp hP)
  obtain ⟨r, hrl, hch⟩ := hA5 P mq hmq
  refine ⟨r, hrl, ?_⟩
  cases hsort : mq.childrenAreSorted with
  | true =>
    rw [hsort] at hch
    simpa using hch
  | false =>
    rw [hsort] at hch
    simp at hch
    have hempty : chains (some P) = [] := by
      by_contra hne
      have hx : ∃ c, c ∈ chains (some P) := by
        cases hcs : chains (some P) with
        | nil => exact absurd hcs hne
        | cons c t => exact ⟨c, by simp⟩
      obtain ⟨c, hc⟩ := hx
      have hg : GroupOK nodes chains (some P) := by
        apply hwf.2.2.2.2
        obtain ⟨n, hn, hid⟩ := hP
        exact List.mem_map.mpr ⟨n, hn, hid⟩
      have hcm := chain_mem nodes chains (some P) hg c hc
      rcases hA7 (some P) ⟨c, hcm.1, hcm.2⟩ with ⟨t, _, htmem⟩ | hasm
      · cases htmem
      · obtain ⟨mq', hmq', hs'⟩ := hasm
        rw [hmq] at hmq'
        have hme : mq = mq' := Option.some.inj hmq'
        rw [← hme] at hs'
        rw [hs'] at hsort
        cases hsort
    rw [chainIds, hempty]
    simpa using hch

theorem wf_final_tree (nodes : List NodeInput)
    (chains : Option String → List NodeInput) (hwf : WellFormed nodes chains)
    (s : BuildState) (hinv : Phase3Inv nodes chains s []) :
    s.tree = chainIds chains none := by
  obtain ⟨hA1, hA2, hA3, hA4, hA5, hA6, hA7⟩ := hinv
  cases hroot : s.rootTreeIsSorted with
  | true =>
    rw [hroot] at hA6
    simpa using hA6
  | false =>
    rw [hroot] at hA6
    simp at hA6
    have hempty : chains none = [] := by
      by_contra hne
      have hx : ∃ c, c ∈ chains none := by
        cases hcs : chains none with
        | nil => exact absurd hcs hne
        | cons c t => exact ⟨c, by simp⟩
      obtain ⟨c, hc⟩ := hx
      have hcm := chain_mem nodes chains none hwf.2.2.2.1 c hc
      rcases hA7 none ⟨c, hcm.1, hcm.2⟩ with ⟨t, _, htmem⟩ | hasm
      · cases htmem
      · have h2 : s.rootTreeIsSorted = true := hasm
        rw [hroot] at h2
        cases h2
    rw [chainIds, hempty, hA6]
    simp

/-- C1: for every sibling run encoded as a backward chain (nodes `chains
(some P)` listed left to right, each naming its left neighbour as
`previousSiblingId`, all sharing parent `P`) in a well-formed input, the
assembler terminates and produces exactly that parent's `children` as the
chain's id sequence in left-to-right order — the backward walk starts at
the terminal node and prepends until the previous-sibling reference is null
or unresolved. -/
theorem c1_sibling_chain_order (nodes : List NodeInput)
    (chains : Option String → List NodeInput) (hwf : WellFormed nodes chains)
    (fuel : Nat) (hfuel : nodes.length ≤ fuel) (P : String)
    (hP : ∃ n ∈ nodes, n.nodeId = P) :
    ∃ s r, buildTreeModel nodes fuel = Outcome.ok s ∧
      s.references.lookup P = some r ∧
      r.children = (chains (some P)).map (fun n => n.nodeId) := by
  obtain ⟨s, hrun, hinv⟩ := buildTree_wf_master nodes chains hwf fuel hfuel
  obtain ⟨r, hrl, hch⟩ := wf_final_children nodes chains hwf s hinv P hP
  exact ⟨s, r, hrun, hrl, hch⟩

/-- C1 witness: the hand-built chain `A ← B ← C ← D` under parent `P`
produces `children = [A, B, C, D]`. -/
theorem c1_witness :
    WellFormed exNodes exChains ∧
    ∃ s r, buildTreeModel exNodes 5 = Outcome.ok s ∧
      s.references.lookup "P" = some r ∧
      r.children = ["A", "B", "C", "D"] :=
  ⟨by unfold WellFormed GroupOK; decide,
   c1_sibling_chain_order exNodes exChains (by unfold WellFormed GroupOK; decide) 5 (by decide)
     "P" (by decide)⟩

/-- C6: under a well-formed input, after the terminal-node-detection phase
every (nonempty) sibling group has exactly one node with `isLastNode` still
`true`: the last node of the group's chain. -/
theorem c6_unique_terminal (nodes : List NodeInput)
    (chains : Option String → List NodeInput) (hwf : WellFormed nodes chains)
    (p : Option String) (n0 : NodeInput) (hn0 : n0 ∈ nodes) (hp : n0.parentId = p) :
    ∃ t, t ∈ nodes ∧ t.parentId = p ∧
      (phase2Meta nodes).lookup t.nodeId =
        some { isLastNode := true, childrenAreSorted := false } ∧
      ∀ m ∈ nodes, m.parentId = p →
        (phase2Meta nodes).lookup m.nodeId =
          some { isLastNode := true, childrenAreSorted := false } → m = t := by
  have hg : GroupOK nodes chains p := by
    rw [← hp]; exact wf_groupOK nodes chains hwf n0 hn0
  have hself : n0 ∈ chains p := by
    rw [← hp]; exact mem_chain_self nodes chains hwf n0 hn0
  cases hgl : (chains p).getLast? with
  | none =>
    rw [List.getLast?_eq_none_iff] at hgl
    rw [hgl] at hself
    cases hself
  | some t =>
    have htc : t ∈ chains p := mem_of_getLast?_eq_some hgl
    have htn := chain_mem nodes chains p hg t htc
    refine ⟨t, htn.1, htn.2, ?_, ?_⟩
    · obtain ⟨flag, hlk, hiff⟩ := wf_isLastNode_iff nodes chains hwf t htn.1
      have hft : flag = true := hiff.mpr (by rw [htn.2]; exact hgl)
      rw [hft] at hlk
      exact hlk
    · intro m hm hmp hmflag
      obtain ⟨flag, hlk, hiff⟩ := wf_isLastNode_iff nodes chains hwf m hm
      rw [hlk] at hmflag
      have hfl : flag = true := congrArg NodeMeta.isLastNode (Option.some.inj hmflag)
      have hml := hiff.mp hfl
      rw [hmp] at hml
      rw [hgl] at hml
      exact (Option.some.inj hml).symm

/-- C6 witness: in the example, `A`'s group (parent `P`) has exactly one
terminal node. -/
theorem c6_witness :
    WellFormed exNodes exChains ∧
    ∃ t, t ∈ exNodes ∧ t.parentId = some "P" ∧
      (phase2Meta exNodes).lookup t.nodeId =
        some { isLastNode := true, childrenAreSorted := false } ∧
      ∀ m ∈ exNodes, m.parentId = some "P" →
        (phase2Meta exNodes).lookup m.nodeId =
          some { isLastNode := true, childrenAreSorted := false } → m = t :=
  ⟨by unfold WellFormed GroupOK; decide,
   c6_unique_terminal exNodes exChains (by unfold WellFormed GroupOK; decide) (some "P") exA
     (by decide) rfl⟩

/-- C7: under a well-formed input the run completes, every node with a null
`parentId` appears in the top-level root list, and every node with
`parentId = some P` appears in `P`'s `children`, not in the root list and
not in any other node's `children`. -/
theorem c7_root_vs_nested (nodes : List NodeInput)
    (chains : Option String → List NodeInput) (hwf : WellFormed nodes chains)
    (fuel : Nat) (hfuel : nodes.length ≤ fuel) :
    ∃ s, buildTreeModel nodes fuel = Outcome.ok s ∧
      (∀ n ∈ nodes, n.parentId = none → n.nodeId ∈ s.tree) ∧
      (∀ n ∈ nodes, ∀ P, n.parentId = some P →
        (∃ r, s.references.lookup P = some r ∧ n.nodeId ∈ r.children) ∧
        n.nodeId ∉ s.tree ∧
        (∀ Q r', s.references.lookup Q = some r' → Q ≠ P → n.nodeId ∉ r'.children)) := by
  obtain ⟨s, hrun, hinv⟩ := buildTree_wf_master nodes chains hwf fuel hfuel
  have htree := wf_final_tree nodes chains hwf s hinv
  refine ⟨s, hrun, ?_, ?_⟩
  · intro n hn hp
    rw [htree, chainIds]
    have hself := mem_chain_self nodes chains hwf n hn
    rw [hp] at hself
    exact List.mem_map.mpr ⟨n, hself, rfl⟩
  · intro n hn P hp
    have hPids : P ∈ nodes.map (fun n => n.nodeId) := by
      have hres := hwf.2.2.1 n hn
      rw [parentResolvesB, hp] at hres
      simpa using hres
    obtain ⟨nP, hnP, hnPid⟩ : ∃ a ∈ nodes, a.nodeId = P := by simpa using hPids
    obtain ⟨r, hrl, hch⟩ := wf_final_children nodes chains hwf s hinv P ⟨nP, hnP, hnPid⟩
    have hself : n ∈ chains (some P) := by
      have h0 := mem_chain_self nodes chains hwf n hn
      rw [hp] at h0
      exact h0
    refine ⟨⟨r, hrl, ?_⟩, ?_, ?_⟩
    · rw [hch, chainIds]
      exact List.mem_map.mpr ⟨n, hself, rfl⟩
    · rw [htree, chainIds]
      intro hmem
      obtain ⟨m', hm'c, hm'id⟩ := List.mem_map.mp hmem
      have hm'n := chain_mem nodes chains none hwf.2.2.2.1 m' hm'c
      have hmm : m' = n := node_id_inj nodes chains hwf hm'n.1 hn hm'id
      have h2 := hm'n.2
      rw [hmm, hp] at h2
      cases h2
    · intro Q r' hQl hQP hmem
      have hinvc := hinv
      obtain ⟨hA1, hA2, hA3, hA4, hA5, hA6, hA7⟩ := hinvc
      have hQid : ∃ a ∈ nodes, a.nodeId = Q := (hA1 Q).mpr (by simp [hQl])
      obtain ⟨mq, hmq⟩ := Option.isSome_iff_exists.mp ((hA3 Q).mp hQid)
      obtain ⟨r'', hr'', hch''⟩ := hA5 Q mq hmq
      have hre : r'' = r' := by rw [hQl] at hr''; exact (Option.some.inj hr'').symm
      rw [hre] at hch''
      cases hsort : mq.childrenAreSorted with
      | false =>
        rw [hsort] at hch''
        simp at hch''
        rw [hch''] at hmem
        cases hmem
      | true =>
        rw [hsort] at hch''
        simp at hch''
        rw [hch'', chainIds] at hmem
        obtain ⟨m', hm'c, hm'id⟩ := List.mem_map.mp hmem
        have hgQ : GroupOK nodes chains (some Q) := by
          apply hwf.2.2.2.2
          obtain ⟨a, ha, haid⟩ := hQid
          exact List.mem_map.mpr ⟨a, ha, haid⟩
        have hm'n := chain_mem nodes chains (some Q) hgQ m' hm'c
        have hmm : m' = n := node_id_inj nodes chains hwf hm'n.1 hn hm'id
        have h2 := hm'n.2
        rw [hmm, hp] at h2
        exact hQP (Option.some.inj h2).symm

/-- C7 witness: in the example, root `P` lands in the root list and child
`D` lands only under `P`. -/
theorem c7_witness :
    WellFormed exNodes exChains ∧
    ∃ s, buildTreeModel exNodes 5 = Outcome.ok s ∧
      (∀ n ∈ exNodes, n.parentId = none → n.nodeId ∈ s.tree) ∧
      (∀ n ∈ exNodes, ∀ P, n.parentId = some P →
        (∃ r, s.references.lookup P = some r ∧ n.nodeId ∈ r.children) ∧
        n.nodeId ∉ s.tree ∧
        (∀ Q r', s.references.lookup Q = some r' → Q ≠ P → n.nodeId ∉ r'.children)) :=
  ⟨by unfold WellFormed GroupOK; decide,
   c7_root_vs_nested exNodes exChains (by unfold WellFormed GroupOK; decide) 5 (by decide)⟩
